import Mathlib

/-!
Verification of the minesweeper game engine in `src/main.ts`.

The TypeScript engine is shallowly embedded: the mutable `GameState` becomes a
Lean structure that every operation transforms functionally, the board is a
list of rows of cells, and the two sources of environment input that the
engine consumes — `Math.random()` and the wall clock — are threaded in as
explicit parameters (an arbitrary function `Nat → Nat` supplies the random
draws; each draw is reduced modulo the required bound, so every behaviour of
the real program corresponds to some parameter value).  DOM rendering, audio
and `localStorage` writes (`renderCell`, `playSound`, `setStatus`,
`unlockAudio`, `saveLeaderboard`, …) read the engine state but never change
it, so they have no counterpart here.
-/

namespace Minesweeper

/-- One board cell, as in `interface Cell` of `main.ts`. -/
structure Cell where
  isMine : Bool
  isOpen : Bool
  isFlagged : Bool
  adjacent : Nat
  isWrongFlag : Bool
deriving DecidableEq, Repr

/-- The cell produced by `createEmptyBoard` for every position. -/
def emptyCell : Cell :=
  { isMine := false, isOpen := false, isFlagged := false, adjacent := 0, isWrongFlag := false }

/-- A board is a list of rows (`Cell[][]`). -/
abbrev Board := List (List Cell)

/-- `createBoard(rows, cols)`: every cell mine-free, closed, unflagged, adjacency 0. -/
def createEmptyBoard (rows cols : Nat) : Board :=
  List.replicate rows (List.replicate cols emptyCell)

/-- Row `r` of the board (`board[r]`); an absent row reads as empty. -/
def getRow (b : Board) (r : Nat) : List Cell := b.getD r []

/-- Read the cell at `(r, c)` (`board[r][c]`); out-of-range reads give `emptyCell`. -/
def getc (b : Board) (r c : Nat) : Cell := (getRow b r).getD c emptyCell

/-- Replace the cell at `(r, c)` by `f` of its current value (a field assignment
in the source); out-of-range writes leave the board unchanged. -/
def modc (b : Board) (r c : Nat) (f : Cell → Cell) : Board :=
  b.set r ((getRow b r).set c (f (getc b r c)))

/-- `(r, c)` addresses an actual entry of the nested-list board. -/
def inb (b : Board) (r c : Nat) : Prop :=
  r < b.length ∧ c < (getRow b r).length

instance (b : Board) (r c : Nat) : Decidable (inb b r c) := by
  unfold inb; infer_instance

/-- The board is a rectangular `rows × cols` grid. -/
def Rect (rows cols : Nat) (b : Board) : Prop :=
  b.length = rows ∧ ∀ row ∈ b, row.length = cols

instance (rows cols : Nat) (b : Board) : Decidable (Rect rows cols b) := by
  unfold Rect; infer_instance

theorem rect_createEmptyBoard (rows cols : Nat) : Rect rows cols (createEmptyBoard rows cols) := by
  constructor
  · simp [createEmptyBoard]
  · intro row hrow
    rcases List.eq_of_mem_replicate hrow with rfl
    simp

theorem getRow_length_of_rect {rows cols : Nat} {b : Board} (hb : Rect rows cols b)
    {r : Nat} (hr : r < rows) : (getRow b r).length = cols := by
  have hlen : r < b.length := by rw [hb.1]; exact hr
  have hmem : getRow b r ∈ b := by
    rw [getRow, List.getD_eq_getElem?_getD, List.getElem?_eq_getElem hlen]
    exact List.getElem_mem hlen
  exact hb.2 _ hmem

theorem inb_of_rect {rows cols : Nat} {b : Board} (hb : Rect rows cols b)
    {r c : Nat} (hr : r < rows) (hc : c < cols) : inb b r c := by
  refine ⟨by rw [hb.1]; exact hr, ?_⟩
  rw [getRow_length_of_rect hb hr]; exact hc

theorem getRow_modc_self {b : Board} {r : Nat} (hr : r < b.length) (c : Nat) (f : Cell → Cell) :
    getRow (modc b r c f) r = (getRow b r).set c (f (getc b r c)) := by
  unfold getRow modc
  rw [List.getD_eq_getElem?_getD, List.getElem?_set_self hr]
  rfl

theorem getRow_modc_ne {b : Board} {r r' : Nat} (h : r ≠ r') (c : Nat) (f : Cell → Cell) :
    getRow (modc b r c f) r' = getRow b r' := by
  unfold getRow modc
  rw [List.getD_eq_getElem?_getD, List.getElem?_set_ne h, ← List.getD_eq_getElem?_getD]

theorem getc_modc_self {b : Board} {r c : Nat} (h : inb b r c) (f : Cell → Cell) :
    getc (modc b r c f) r c = f (getc b r c) := by
  unfold getc
  rw [getRow_modc_self h.1]
  rw [List.getD_eq_getElem?_getD, List.getElem?_set_self h.2]
  rfl

theorem getc_modc_ne {b : Board} {r c r' c' : Nat} (h : r ≠ r' ∨ c ≠ c')
    (f : Cell → Cell) : getc (modc b r c f) r' c' = getc b r' c' := by
  rcases h with h | h
  · unfold getc; rw [getRow_modc_ne h]
  · unfold getc
    rcases Nat.decEq r r' with hr | hr
    · rw [getRow_modc_ne hr]
    · subst hr
      by_cases hrlen : r < b.length
      · rw [getRow_modc_self hrlen]
        rw [List.getD_eq_getElem?_getD, List.getElem?_set_ne h, ← List.getD_eq_getElem?_getD]
      · unfold modc
        rw [List.set_eq_of_length_le (Nat.le_of_not_lt hrlen)]

theorem length_modc (b : Board) (r c : Nat) (f : Cell → Cell) :
    (modc b r c f).length = b.length := by
  unfold modc; exact List.length_set ..

theorem getRow_length_modc (b : Board) (r c : Nat) (f : Cell → Cell) (r' : Nat) :
    (getRow (modc b r c f) r').length = (getRow b r').length := by
  rcases Nat.decEq r r' with h | h
  · rw [getRow_modc_ne h]
  · subst h
    by_cases hrlen : r < b.length
    · rw [getRow_modc_self hrlen, List.length_set]
    · unfold modc
      rw [List.set_eq_of_length_le (Nat.le_of_not_lt hrlen)]

theorem rect_modc {rows cols : Nat} {b : Board} (hb : Rect rows cols b)
    (r c : Nat) (f : Cell → Cell) : Rect rows cols (modc b r c f) := by
  refine ⟨by rw [length_modc, hb.1], ?_⟩
  intro row hrow
  rw [List.mem_iff_getElem] at hrow
  obtain ⟨i, hi, rfl⟩ := hrow
  have hi' : i < b.length := by rw [← length_modc b r c f]; exact hi
  have : (modc b r c f)[i] = getRow (modc b r c f) i := by
    rw [getRow, List.getD_eq_getElem?_getD, List.getElem?_eq_getElem hi]; rfl
  rw [this, getRow_length_modc]
  have : getRow b i = b[i] := by
    rw [getRow, List.getD_eq_getElem?_getD, List.getElem?_eq_getElem hi']; rfl
  rw [this]
  exact hb.2 _ (List.getElem_mem hi')

/-! ### Counting cells over the configured grid -/

/-- All coordinates of a `rows × cols` configuration. -/
def gridF (rows cols : Nat) : Finset (Nat × Nat) := Finset.range rows ×ˢ Finset.range cols

theorem mem_gridF {rows cols : Nat} {p : Nat × Nat} :
    p ∈ gridF rows cols ↔ p.1 < rows ∧ p.2 < cols := by
  simp [gridF]

theorem card_gridF (rows cols : Nat) : (gridF rows cols).card = rows * cols := by
  simp [gridF]

/-- Number of grid cells whose value satisfies `p`. -/
def countGrid (rows cols : Nat) (p : Cell → Bool) (b : Board) : Nat :=
  ((gridF rows cols).filter (fun q => p (getc b q.1 q.2) = true)).card

theorem countGrid_congr {rows cols : Nat} {p : Cell → Bool} {b₁ b₂ : Board}
    (h : ∀ r < rows, ∀ c < cols, p (getc b₁ r c) = p (getc b₂ r c)) :
    countGrid rows cols p b₁ = countGrid rows cols p b₂ := by
  unfold countGrid
  congr 1
  apply Finset.filter_congr
  intro q hq
  rw [mem_gridF] at hq
  rw [h q.1 hq.1 q.2 hq.2]

/-- Changing one in-grid cell changes a grid count exactly by the change of
the predicate at that cell. -/
theorem countGrid_modc {rows cols : Nat} {p : Cell → Bool} {b : Board} {r c : Nat}
    (hr : r < rows) (hc : c < cols) (hb : inb b r c) (f : Cell → Cell) :
    countGrid rows cols p (modc b r c f) + (if p (getc b r c) then 1 else 0)
      = countGrid rows cols p b + (if p (f (getc b r c)) then 1 else 0) := by
  classical
  have hmem : (r, c) ∈ gridF rows cols := mem_gridF.mpr ⟨hr, hc⟩
  have hgrid : gridF rows cols = insert (r, c) ((gridF rows cols).erase (r, c)) :=
    (Finset.insert_erase hmem).symm
  have hnotmem : (r, c) ∉ (gridF rows cols).erase (r, c) := Finset.not_mem_erase _ _
  have herase : ∀ q ∈ (gridF rows cols).erase (r, c),
      (p (getc (modc b r c f) q.1 q.2) = true) ↔ (p (getc b q.1 q.2) = true) := by
    intro q hq
    have hne : q ≠ (r, c) := Finset.ne_of_mem_erase hq
    have : r ≠ q.1 ∨ c ≠ q.2 := by
      by_contra hcon
      push_neg at hcon
      exact hne (Prod.ext hcon.1.symm hcon.2.symm)
    rw [getc_modc_ne this]
  have key : ∀ (b' : Board) (v : Cell), getc b' r c = v →
      (∀ q ∈ (gridF rows cols).erase (r, c),
        (p (getc b' q.1 q.2) = true) ↔ (p (getc b q.1 q.2) = true)) →
      ((gridF rows cols).filter (fun q => p (getc b' q.1 q.2) = true)).card
        = (((gridF rows cols).erase (r, c)).filter (fun q => p (getc b q.1 q.2) = true)).card
          + (if p v then 1 else 0) := by
    intro b' v hv hrest
    conv_lhs => rw [hgrid]
    rw [Finset.filter_insert]
    by_cases hp : p v = true
    · rw [if_pos (by rw [hv]; exact hp)]
      rw [Finset.card_insert_of_not_mem (fun hmem' => hnotmem (Finset.mem_of_mem_filter _ hmem'))]
      rw [Finset.filter_congr hrest, if_pos hp]
    · rw [if_neg (by rw [hv]; exact hp)]
      rw [Finset.filter_congr hrest, if_neg hp]
      simp
  have h1 := key (modc b r c f) (f (getc b r c)) (getc_modc_self hb f) herase
  have h2 := key b (getc b r c) rfl (fun q _ => Iff.rfl)
  unfold countGrid
  omega

/-- A cell update that leaves `p` invariant leaves the grid count unchanged. -/
theorem countGrid_modc_invar {rows cols : Nat} {p : Cell → Bool} {b : Board} {r c : Nat}
    (f : Cell → Cell) (hf : ∀ cell, p (f cell) = p cell) :
    countGrid rows cols p (modc b r c f) = countGrid rows cols p b := by
  apply countGrid_congr
  intro r' hr' c' hc'
  by_cases hsame : r = r' ∧ c = c'
  · rcases hsame with ⟨rfl, rfl⟩
    by_cases hb : inb b r c
    · rw [getc_modc_self hb, hf]
    · rw [inb] at hb
      push_neg at hb
      by_cases hrlen : r < b.length
      · have hclen := hb hrlen
        unfold getc
        rw [getRow_modc_self hrlen, List.getD_eq_getElem?_getD, List.getD_eq_getElem?_getD,
          List.getElem?_set]
        rw [if_pos rfl, if_neg (by omega), List.getElem?_eq_none hclen]
      · have : modc b r c f = b := by
          unfold modc
          rw [List.set_eq_of_length_le (Nat.le_of_not_lt hrlen)]
        rw [this]
  · have : r ≠ r' ∨ c ≠ c' := by tauto
    rw [getc_modc_ne this]

end Minesweeper

namespace Minesweeper

/-! ### Mine placement (`placeMines`, lines 395-442 of `main.ts`) -/

/-- `Set.add` on the insertion-ordered list model of a JS `Set<number>`. -/
def setAdd (s : List Nat) (x : Nat) : List Nat := if x ∈ s then s else s ++ [x]

/-- The `(dr, dc)` pairs visited by the nested `-1..1` loops of `placeMines`,
in source order (`dr` outer, `dc` inner, center included). -/
def deltas9 : List (Int × Int) :=
  [(-1, -1), (-1, 0), (-1, 1), (0, -1), (0, 0), (0, 1), (1, -1), (1, 0), (1, 1)]

/-- One step of the exclusion-set loop: add the linearized neighbor coordinate
when it is in bounds. -/
def exclStep (rows cols er ec : Nat) (s : List Nat) (d : Int × Int) : List Nat :=
  let nr : Int := (er : Int) + d.1
  let nc : Int := (ec : Int) + d.2
  if 0 ≤ nr ∧ nr < (rows : Int) ∧ 0 ≤ nc ∧ nc < (cols : Int) then
    setAdd s (nr.toNat * cols + nc.toNat)
  else s

/-- Linearized in-bounds coordinates of the 3×3 neighborhood of the first
click, collected into the `exclusions` set by the first loop of `placeMines`. -/
def exclusionList (rows cols er ec : Nat) : List Nat :=
  deltas9.foldl (exclStep rows cols er ec) []

/-- The exclusion set after the safety fallback of `placeMines`: if fewer than
`mines` cells remain outside the 3×3 neighborhood, it is shrunk to the single
clicked cell. -/
def exclusions (rows cols mines er ec : Nat) : List Nat :=
  let ex := exclusionList rows cols er ec
  if (rows : Int) * cols - ex.length < (mines : Int) then [er * cols + ec] else ex

/-- The `positions` array: all linearized indices not in the exclusion set, in
row-major order. -/
def positionsList (rows cols : Nat) (ex : List Nat) : List Nat :=
  (List.range rows).flatMap (fun r => (List.range cols).filterMap (fun c =>
    if (r * cols + c) ∈ ex then none else some (r * cols + c)))

/-- Swap entries `i` and `j` of the array
(`[positions[i], positions[j]] = [positions[j], positions[i]]`). -/
def swapL (l : List Nat) (i j : Nat) : List Nat :=
  (l.set i (l.getD j 0)).set j (l.getD i 0)

/-- The Fisher–Yates downward loop; step `i+1` swaps index `i+1` with the
random index `rand (i+1) % (i+2)` (the draw `Math.floor(Math.random()*(i+1))`
of the source, for loop variable `i+1`). -/
def fyAux (rand : Nat → Nat) : Nat → List Nat → List Nat
  | 0, l => l
  | i + 1, l => fyAux rand i (swapL l (i + 1) (rand (i + 1) % (i + 2)))

/-- The full shuffle of `placeMines`, running `i` from `length - 1` down to 1. -/
def shuffle (rand : Nat → Nat) (l : List Nat) : List Nat := fyAux rand (l.length - 1) l

/-- `state.board[row][col].isMine = true` for the linearized index `idx`. -/
def setMineAt (cols : Nat) (b : Board) (idx : Nat) : Board :=
  modc b (idx / cols) (idx % cols) (fun cell => { cell with isMine := true })

/-- The `dr`/`dc` pairs visited by `countAdjacentMines` (the full 3×3 square
minus the skipped center), in source loop order. -/
def deltas8 : List (Int × Int) :=
  [(-1, -1), (-1, 0), (-1, 1), (0, -1), (0, 1), (1, -1), (1, 0), (1, 1)]

/-- The shared bounds test `nr >= 0 && nr < rows && nc >= 0 && nc < cols`. -/
def boundsOk (rows cols : Nat) (nr nc : Int) : Bool :=
  decide (0 ≤ nr) && decide (nr < (rows : Int)) && decide (0 ≤ nc) && decide (nc < (cols : Int))

/-- The body of the `countAdjacentMines` loop for one `(dr, dc)` pair: the
neighbor is counted when it is in bounds and is a mine. -/
def adjProbe (rows cols : Nat) (b : Board) (r c : Nat) (d : Int × Int) : Bool :=
  boundsOk rows cols ((r : Int) + d.1) ((c : Int) + d.2) &&
    (getc b ((r : Int) + d.1).toNat ((c : Int) + d.2).toNat).isMine

/-- `countAdjacentMines(row, col)` (lines 444-456). -/
def countAdjacentMines (rows cols : Nat) (b : Board) (r c : Nat) : Nat :=
  deltas8.countP (adjProbe rows cols b r c)

/-- Row-major list of all grid coordinates (the nested `row`/`col` loops). -/
def allCoords (rows cols : Nat) : List (Nat × Nat) :=
  (List.range rows).flatMap (fun r => (List.range cols).map (fun c => (r, c)))

/-- One iteration of the adjacency-computation loop of `placeMines`: skip the
cell if it is a mine, otherwise assign its `adjacent` from the current board. -/
def passStep (rows cols : Nat) (b : Board) (p : Nat × Nat) : Board :=
  if (getc b p.1 p.2).isMine then b
  else modc b p.1 p.2
    (fun cell => { cell with adjacent := countAdjacentMines rows cols b p.1 p.2 })

/-- The adjacency-computation loop of `placeMines` (lines 434-439): every
non-mine cell's `adjacent` is assigned from the board as it stands when the
cell is visited. -/
def adjacencyPass (rows cols : Nat) (b : Board) : Board :=
  (allCoords rows cols).foldl (passStep rows cols) b

/-- `placeMines(excludeRow, excludeCol)` acting on the board: build the
exclusion set (with fallback), collect and shuffle the candidate positions,
mark the first `mines` of them as mines, then recompute all adjacency counts. -/
def placeMinesB (rand : Nat → Nat) (rows cols mines er ec : Nat) (b : Board) : Board :=
  let ex := exclusions rows cols mines er ec
  let shuffled := shuffle rand (positionsList rows cols ex)
  adjacencyPass rows cols ((shuffled.take mines).foldl (setMineAt cols) b)

end Minesweeper

namespace Minesweeper

/-! ### Properties of the exclusion set -/

theorem mem_setAdd {s : List Nat} {x y : Nat} : y ∈ setAdd s x ↔ y ∈ s ∨ y = x := by
  unfold setAdd
  by_cases h : x ∈ s
  · rw [if_pos h]
    constructor
    · exact Or.inl
    · rintro (hy | rfl)
      · exact hy
      · exact h
  · rw [if_neg h]
    simp

theorem nodup_setAdd {s : List Nat} (hs : s.Nodup) (x : Nat) : (setAdd s x).Nodup := by
  unfold setAdd
  by_cases h : x ∈ s
  · rw [if_pos h]; exact hs
  · rw [if_neg h]
    refine List.Nodup.append hs (List.nodup_singleton x) ?_
    intro a ha hax
    rw [List.mem_singleton] at hax
    subst hax
    exact h ha

theorem nodup_exclStep_foldl (rows cols er ec : Nat) (ds : List (Int × Int)) :
    ∀ s : List Nat, s.Nodup → (ds.foldl (exclStep rows cols er ec) s).Nodup := by
  induction ds with
  | nil => intro s hs; exact hs
  | cons d ds ih =>
    intro s hs
    rw [List.foldl_cons]
    apply ih
    simp only [exclStep]
    split
    · exact nodup_setAdd hs _
    · exact hs

theorem mem_of_mem_exclStep_foldl (rows cols er ec : Nat) (ds : List (Int × Int)) :
    ∀ s : List Nat, ∀ x ∈ s, x ∈ ds.foldl (exclStep rows cols er ec) s := by
  induction ds with
  | nil => intro s x hx; exact hx
  | cons d ds ih =>
    intro s x hx
    rw [List.foldl_cons]
    apply ih
    simp only [exclStep]
    split
    · exact mem_setAdd.mpr (Or.inl hx)
    · exact hx

theorem exclStep_foldl_adds (rows cols er ec : Nat) (ds : List (Int × Int)) :
    ∀ s : List Nat, ∀ d ∈ ds,
      0 ≤ (er : Int) + d.1 → (er : Int) + d.1 < (rows : Int) →
      0 ≤ (ec : Int) + d.2 → (ec : Int) + d.2 < (cols : Int) →
      ((er : Int) + d.1).toNat * cols + ((ec : Int) + d.2).toNat
        ∈ ds.foldl (exclStep rows cols er ec) s := by
  induction ds with
  | nil => intro s d hd; cases hd
  | cons d₀ ds ih =>
    intro s d hd h1 h2 h3 h4
    rw [List.foldl_cons]
    rcases List.mem_cons.mp hd with rfl | hd'
    · apply mem_of_mem_exclStep_foldl
      simp only [exclStep]
      rw [if_pos ⟨h1, h2, h3, h4⟩]
      exact mem_setAdd.mpr (Or.inr rfl)
    · exact ih _ d hd' h1 h2 h3 h4

theorem mem_exclStep_foldl_elim (rows cols er ec : Nat) (ds : List (Int × Int)) :
    ∀ s : List Nat, ∀ x ∈ ds.foldl (exclStep rows cols er ec) s,
      x ∈ s ∨ ∃ r' c' : Nat, r' < rows ∧ c' < cols ∧ x = r' * cols + c' := by
  induction ds with
  | nil => intro s x hx; exact Or.inl hx
  | cons d ds ih =>
    intro s x hx
    rw [List.foldl_cons] at hx
    rcases ih _ x hx with hx' | hrest
    · simp only [exclStep] at hx'
      split at hx'
      · rename_i hguard
        rcases mem_setAdd.mp hx' with hx'' | rfl
        · exact Or.inl hx''
        · refine Or.inr ⟨((er : Int) + d.1).toNat, ((ec : Int) + d.2).toNat, ?_, ?_, rfl⟩
          · omega
          · omega
      · exact Or.inl hx'
    · exact Or.inr hrest

end Minesweeper

namespace Minesweeper

/-! ### The candidate positions and the shuffle -/

theorem filter_length_split {α : Type} (p : α → Bool) (l : List α) :
    (l.filter p).length + (l.filter (fun a => !p a)).length = l.length := by
  induction l with
  | nil => rfl
  | cons x xs ih =>
    by_cases hx : p x
    · simp [List.filter_cons, hx, ← ih]
      omega
    · simp [List.filter_cons, hx, ← ih]
      omega

theorem filterMap_shift_eq (ex : List Nat) (a : Nat) :
    ∀ l : List Nat,
      l.filterMap (fun c => if (a + c) ∈ ex then none else some (a + c))
        = (l.map (fun c => a + c)).filter (fun i => !decide (i ∈ ex)) := by
  intro l
  induction l with
  | nil => rfl
  | cons x xs ih =>
    rw [List.filterMap_cons, List.map_cons, List.filter_cons]
    by_cases hx : (a + x) ∈ ex
    · rw [if_pos hx, ih]
      simp [hx]
    · rw [if_neg hx, ih]
      simp [hx]

theorem positionsList_eq_filter (rows cols : Nat) (ex : List Nat) :
    positionsList rows cols ex
      = (List.range (rows * cols)).filter (fun i => !decide (i ∈ ex)) := by
  induction rows with
  | zero => simp [positionsList]
  | succ rows ih =>
    unfold positionsList at ih ⊢
    rw [List.range_succ, List.flatMap_append, ih]
    have hmul : (rows + 1) * cols = rows * cols + cols := by ring
    rw [hmul, List.range_add, List.filter_append]
    congr 1
    have : ∀ c : Nat, rows * cols + c = rows * cols + c := fun _ => rfl
    rw [List.flatMap_cons, List.flatMap_nil, List.append_nil]
    exact filterMap_shift_eq ex (rows * cols) (List.range cols)

theorem toFinset_listRange (n : Nat) : (List.range n).toFinset = Finset.range n := by
  ext x
  simp

theorem positionsList_length (rows cols : Nat) (ex : List Nat) (hnd : ex.Nodup)
    (hb : ∀ x ∈ ex, x < rows * cols) :
    (positionsList rows cols ex).length + ex.length = rows * cols := by
  classical
  rw [positionsList_eq_filter]
  have hsplit : ((List.range (rows * cols)).filter (fun i => decide (i ∈ ex))).length
      + ((List.range (rows * cols)).filter (fun i => !decide (i ∈ ex))).length
      = rows * cols := by
    have h := filter_length_split (fun i => decide (i ∈ ex)) (List.range (rows * cols))
    simpa using h
  have hBlen : ((List.range (rows * cols)).filter (fun i => decide (i ∈ ex))).length
      = ex.length := by
    have hBnd : ((List.range (rows * cols)).filter (fun i => decide (i ∈ ex))).Nodup :=
      (List.nodup_range _).filter _
    have h1 : ((List.range (rows * cols)).filter (fun i => decide (i ∈ ex))).toFinset
        = ex.toFinset := by
      ext y
      simp only [List.mem_toFinset, List.mem_filter, List.mem_range, decide_eq_true_eq]
      constructor
      · exact fun h => h.2
      · exact fun h => ⟨hb y h, h⟩
    have h2 := List.card_toFinset
      ((List.range (rows * cols)).filter (fun i => decide (i ∈ ex)))
    have h3 := List.card_toFinset ex
    rw [hBnd.dedup] at h2
    rw [hnd.dedup] at h3
    rw [h1, h3] at h2
    exact h2.symm
  omega

theorem length_swapL (l : List Nat) (i j : Nat) : (swapL l i j).length = l.length := by
  simp [swapL]

theorem count_swapL {l : List Nat} {i j : Nat} (hi : i < l.length) (hj : j < l.length)
    (a : Nat) : (swapL l i j).count a = l.count a := by
  unfold swapL
  rw [List.getD_eq_getElem l 0 hj, List.getD_eq_getElem l 0 hi]
  have hjA : j < (l.set i l[j]).length := by rw [List.length_set]; exact hj
  have e1 := List.count_set l[j] a l i hi
  have e2 := List.count_set l[i] a (l.set i l[j]) j hjA
  have hAj : (l.set i l[j])[j] = l[j] := by
    rw [List.getElem_set]
    split <;> rfl
  rw [hAj] at e2
  have c1 : (if (l[i] == a) = true then 1 else 0) ≤ l.count a := by
    split
    · rename_i h
      exact List.one_le_count_iff.mpr (beq_iff_eq.mp h ▸ List.getElem_mem hi)
    · omega
  omega

theorem fyAux_length_count (rand : Nat → Nat) :
    ∀ (i : Nat) (l : List Nat), i < l.length →
      (fyAux rand i l).length = l.length ∧ ∀ a, (fyAux rand i l).count a = l.count a := by
  intro i
  induction i with
  | zero => intro l _; exact ⟨rfl, fun _ => rfl⟩
  | succ i ih =>
    intro l hl
    have hlen := length_swapL l (i + 1) (rand (i + 1) % (i + 2))
    have hi' : i < (swapL l (i + 1) (rand (i + 1) % (i + 2))).length := by omega
    obtain ⟨h1, h2⟩ := ih _ hi'
    have hj : rand (i + 1) % (i + 2) < l.length := by
      have := Nat.mod_lt (rand (i + 1)) (y := i + 2) (by omega)
      omega
    refine ⟨?_, ?_⟩
    · rw [fyAux, h1, hlen]
    · intro a
      rw [fyAux, h2 a, count_swapL hl hj]

theorem shuffle_perm (rand : Nat → Nat) (l : List Nat) : (shuffle rand l).Perm l := by
  cases l with
  | nil => exact List.Perm.refl _
  | cons x xs =>
    unfold shuffle
    rw [List.perm_iff_count]
    intro a
    have hlt : (x :: xs).length - 1 < (x :: xs).length := by
      rw [List.length_cons]; omega
    exact (fyAux_length_count rand _ _ hlt).2 a

theorem getc_createEmptyBoard (rows cols r c : Nat) :
    getc (createEmptyBoard rows cols) r c = emptyCell := by
  unfold getc getRow createEmptyBoard
  rw [List.getD_eq_getElem?_getD (List.replicate rows (List.replicate cols emptyCell)) r []]
  rw [List.getElem?_replicate]
  by_cases hr : r < rows
  · rw [if_pos hr, Option.getD_some, List.getD_eq_getElem?_getD, List.getElem?_replicate]
    by_cases hc : c < cols
    · rw [if_pos hc]; rfl
    · rw [if_neg hc]; rfl
  · rw [if_neg hr]
    rfl

end Minesweeper

namespace Minesweeper

/-! ### Writing mines and adjacency counts -/

theorem list_set_getElem_self {α : Type} (l : List α) (n : Nat) (h : n < l.length) :
    l.set n l[n] = l := by
  apply List.ext_getElem?
  intro i
  rw [List.getElem?_set]
  split
  · rename_i hin
    subst hin
    rw [List.getElem?_eq_getElem h]
  · rfl

theorem modc_out {b : Board} {r c : Nat} (h : ¬ inb b r c) (f : Cell → Cell) :
    modc b r c f = b := by
  unfold inb at h
  push_neg at h
  by_cases hrlen : r < b.length
  · have hclen := h hrlen
    unfold modc
    rw [List.set_eq_of_length_le hclen]
    have : getRow b r = b[r] := by
      rw [getRow, List.getD_eq_getElem?_getD, List.getElem?_eq_getElem hrlen]; rfl
    rw [this, list_set_getElem_self]
  · unfold modc
    rw [List.set_eq_of_length_le (Nat.le_of_not_lt hrlen)]

theorem getc_modc_cases (b : Board) (r c : Nat) (f : Cell → Cell) (r' c' : Nat) :
    getc (modc b r c f) r' c' = getc b r' c'
      ∨ (r' = r ∧ c' = c ∧ getc (modc b r c f) r' c' = f (getc b r c)) := by
  by_cases hne : r = r' ∧ c = c'
  · rcases hne with ⟨rfl, rfl⟩
    by_cases hb : inb b r c
    · exact Or.inr ⟨rfl, rfl, getc_modc_self hb f⟩
    · rw [modc_out hb]
      exact Or.inl rfl
  · have : r ≠ r' ∨ c ≠ c' := by tauto
    exact Or.inl (getc_modc_ne this f)

theorem lin_lt {rows cols r c : Nat} (hr : r < rows) (hc : c < cols) :
    r * cols + c < rows * cols := by
  calc r * cols + c < r * cols + cols := by omega
    _ = (r + 1) * cols := by ring
    _ ≤ rows * cols := Nat.mul_le_mul_right cols hr

theorem lin_inj {cols r c q rem : Nat} (hc : c < cols) (hrem : rem < cols)
    (h : r * cols + c = q * cols + rem) : r = q ∧ c = rem := by
  have hcols : 0 < cols := by omega
  have h2 : c + cols * r = rem + cols * q := by
    rw [Nat.mul_comm cols r, Nat.mul_comm cols q]
    omega
  have hdiv := congrArg (· / cols) h2
  simp only at hdiv
  rw [Nat.add_mul_div_left _ _ hcols, Nat.add_mul_div_left _ _ hcols,
    Nat.div_eq_of_lt hc, Nat.div_eq_of_lt hrem] at hdiv
  constructor
  · omega
  · have : r = q := by omega
    subst this
    omega

/-- Marking one linearized index as a mine, viewed through `getc`. -/
theorem getc_setMineAt {rows cols : Nat} {b : Board} (hb : Rect rows cols b)
    (hcols : 0 < cols) {idx : Nat} (hidx : idx < rows * cols)
    {r c : Nat} (hr : r < rows) (hc : c < cols) :
    getc (setMineAt cols b idx) r c
      = if r * cols + c = idx then { getc b r c with isMine := true } else getc b r c := by
  have hq : idx / cols < rows := (Nat.div_lt_iff_lt_mul hcols).mpr hidx
  have hrem : idx % cols < cols := Nat.mod_lt _ hcols
  have hlin : idx / cols * cols + idx % cols = idx := by
    rw [Nat.mul_comm]
    exact Nat.div_add_mod idx cols
  unfold setMineAt
  by_cases heq : r * cols + c = idx
  · have : r = idx / cols ∧ c = idx % cols := lin_inj hc hrem (by omega)
    rcases this with ⟨rfl, rfl⟩
    rw [if_pos heq, getc_modc_self (inb_of_rect hb hq hrem)]
  · rw [if_neg heq]
    apply getc_modc_ne
    by_contra hcon
    push_neg at hcon
    rcases hcon with ⟨h1, h2⟩
    rw [h1, h2] at hlin
    exact heq hlin

theorem rect_setMineAt {rows cols : Nat} {b : Board} (hb : Rect rows cols b) (idx : Nat) :
    Rect rows cols (setMineAt cols b idx) := rect_modc hb _ _ _

theorem rect_foldl_setMineAt {rows cols : Nat} (idxs : List Nat) :
    ∀ {b : Board}, Rect rows cols b → Rect rows cols (idxs.foldl (setMineAt cols) b) := by
  induction idxs with
  | nil => intro b hb; exact hb
  | cons x xs ih =>
    intro b hb
    rw [List.foldl_cons]
    exact ih (rect_setMineAt hb x)

/-- The mine-marking loop of `placeMines`, viewed through `getc`: a cell is a
mine afterwards iff it was one before or its linearized index is in the list. -/
theorem getc_foldl_setMineAt {rows cols : Nat} (hcols : 0 < cols) (idxs : List Nat) :
    ∀ {b : Board}, Rect rows cols b → (∀ x ∈ idxs, x < rows * cols) →
      ∀ {r c : Nat}, r < rows → c < cols →
        getc (idxs.foldl (setMineAt cols) b) r c
          = if r * cols + c ∈ idxs then { getc b r c with isMine := true }
            else getc b r c := by
  induction idxs with
  | nil =>
    intro b _ _ r c _ _
    rw [if_neg (List.not_mem_nil _), List.foldl_nil]
  | cons x xs ih =>
    intro b hb hbound r c hr hc
    rw [List.foldl_cons]
    have hbx : Rect rows cols (setMineAt cols b x) := rect_setMineAt hb x
    have hxlt : x < rows * cols := hbound x (List.mem_cons_self x xs)
    rw [ih hbx (fun y hy => hbound y (List.mem_cons_of_mem x hy)) hr hc,
      getc_setMineAt hb hcols hxlt hr hc]
    by_cases h1 : r * cols + c = x <;> by_cases h2 : r * cols + c ∈ xs
    · rw [if_pos h2, if_pos h1, if_pos (List.mem_cons.mpr (Or.inl h1))]
    · rw [if_neg h2, if_pos h1, if_pos (List.mem_cons.mpr (Or.inl h1))]
    · rw [if_pos h2, if_neg h1, if_pos (List.mem_cons.mpr (Or.inr h2))]
    · rw [if_neg h2, if_neg h1,
        if_neg (fun hmem => by rcases List.mem_cons.mp hmem with h | h <;> tauto)]

end Minesweeper

namespace Minesweeper

theorem mem_allCoords {rows cols : Nat} {p : Nat × Nat} :
    p ∈ allCoords rows cols ↔ p.1 < rows ∧ p.2 < cols := by
  unfold allCoords
  rw [List.mem_flatMap]
  constructor
  · rintro ⟨r, hr, hp⟩
    rw [List.mem_map] at hp
    rcases hp with ⟨c, hc, rfl⟩
    rw [List.mem_range] at hr hc
    exact ⟨hr, hc⟩
  · rintro ⟨h1, h2⟩
    refine ⟨p.1, List.mem_range.mpr h1, ?_⟩
    rw [List.mem_map]
    exact ⟨p.2, List.mem_range.mpr h2, rfl⟩

theorem nodup_allCoords (rows cols : Nat) : (allCoords rows cols).Nodup := by
  unfold allCoords
  rw [List.nodup_flatMap]
  constructor
  · intro r _
    exact (List.nodup_range cols).map (fun a b hab => by
      simpa using congrArg Prod.snd hab)
  · apply List.Pairwise.imp ?_ (List.pairwise_lt_range rows)
    intro a b hab
    intro x hxa hxb
    rw [List.mem_map] at hxa hxb
    rcases hxa with ⟨c₁, _, rfl⟩
    rcases hxb with ⟨c₂, _, h⟩
    have := congrArg Prod.fst h
    simp at this
    omega

theorem getc_passStep_isMine (rows cols : Nat) (b : Board) (p : Nat × Nat) (r c : Nat) :
    (getc (passStep rows cols b p) r c).isMine = (getc b r c).isMine := by
  unfold passStep
  split
  · rfl
  · rcases getc_modc_cases b p.1 p.2
      (fun cell => { cell with adjacent := countAdjacentMines rows cols b p.1 p.2 }) r c with
      h | ⟨he1, he2, h⟩
    · rw [h]
    · subst he1; subst he2
      rw [h]

theorem rect_passStep {rows cols : Nat} {b : Board} (hb : Rect rows cols b) (p : Nat × Nat) :
    Rect rows cols (passStep rows cols b p) := by
  unfold passStep
  split
  · exact hb
  · exact rect_modc hb _ _ _

theorem countAdjacentMines_congr {rows cols : Nat} {b₁ b₂ : Board}
    (h : ∀ r c, (getc b₁ r c).isMine = (getc b₂ r c).isMine) (r c : Nat) :
    countAdjacentMines rows cols b₁ r c = countAdjacentMines rows cols b₂ r c := by
  unfold countAdjacentMines
  apply List.countP_congr
  intro d _
  unfold adjProbe
  rw [h]

theorem getc_foldl_passStep_isMine (rows cols : Nat) (coords : List (Nat × Nat)) :
    ∀ (b : Board) (r c : Nat),
      (getc (coords.foldl (passStep rows cols) b) r c).isMine = (getc b r c).isMine := by
  induction coords with
  | nil => intro b r c; rfl
  | cons p ps ih =>
    intro b r c
    rw [List.foldl_cons, ih, getc_passStep_isMine]

theorem rect_foldl_passStep {rows cols : Nat} (coords : List (Nat × Nat)) :
    ∀ {b : Board}, Rect rows cols b → Rect rows cols (coords.foldl (passStep rows cols) b) := by
  induction coords with
  | nil => intro b hb; exact hb
  | cons p ps ih =>
    intro b hb
    rw [List.foldl_cons]
    exact ih (rect_passStep hb p)

theorem getc_foldl_passStep_untouched (rows cols : Nat) (coords : List (Nat × Nat)) :
    ∀ (b : Board) (r c : Nat), (∀ p ∈ coords, p ≠ (r, c)) →
      getc (coords.foldl (passStep rows cols) b) r c = getc b r c := by
  induction coords with
  | nil => intro b r c _; rfl
  | cons p ps ih =>
    intro b r c hne
    rw [List.foldl_cons, ih _ _ _ (fun q hq => hne q (List.mem_cons_of_mem p hq))]
    unfold passStep
    split
    · rfl
    · apply getc_modc_ne
      have := hne p (List.mem_cons_self p ps)
      by_contra hcon
      push_neg at hcon
      exact this (Prod.ext hcon.1 hcon.2)

/-- The adjacency loop, viewed through `getc`: every visited non-mine cell
receives the adjacency count of the original board (mine flags never change
during the loop, so the count read mid-loop agrees with it), and mine cells
are left alone. -/
theorem getc_foldl_passStep (rows cols : Nat) (coords : List (Nat × Nat)) :
    ∀ (b : Board), Rect rows cols b → coords.Nodup →
      (∀ p ∈ coords, p.1 < rows ∧ p.2 < cols) →
      ∀ p ∈ coords,
        getc (coords.foldl (passStep rows cols) b) p.1 p.2
          = if (getc b p.1 p.2).isMine then getc b p.1 p.2
            else { getc b p.1 p.2 with adjacent := countAdjacentMines rows cols b p.1 p.2 } := by
  induction coords with
  | nil => intro b _ _ _ p hp; cases hp
  | cons p₀ ps ih =>
    intro b hb hnd hbound p hp
    rw [List.foldl_cons]
    have hb₁ : Rect rows cols (passStep rows cols b p₀) := rect_passStep hb p₀
    rcases List.mem_cons.mp hp with rfl | hps
    · have hnotps : ∀ q ∈ ps, q ≠ (p.1, p.2) := by
        intro q hq
        have hnp : p ∉ ps := (List.nodup_cons.mp hnd).1
        intro hqe
        rw [hqe] at hq
        exact hnp hq
      rw [getc_foldl_passStep_untouched rows cols ps _ _ _ hnotps]
      unfold passStep
      split
      · rfl
      · have hpp : p.1 < rows ∧ p.2 < cols := hbound p (List.mem_cons_self p ps)
        rw [getc_modc_self (inb_of_rect hb hpp.1 hpp.2)]
    · have hne : p₀ ≠ p := by
        intro h
        exact (List.nodup_cons.mp hnd).1 (h ▸ hps)
      have hstep : getc (passStep rows cols b p₀) p.1 p.2 = getc b p.1 p.2 := by
        unfold passStep
        split
        · rfl
        · apply getc_modc_ne
          by_contra hcon
          push_neg at hcon
          exact hne (Prod.ext hcon.1 hcon.2)
      rw [ih _ hb₁ (List.nodup_cons.mp hnd).2
        (fun q hq => hbound q (List.mem_cons_of_mem p₀ hq)) p hps]
      rw [hstep]
      rw [countAdjacentMines_congr (fun r c => getc_passStep_isMine rows cols b p₀ r c) p.1 p.2]

end Minesweeper

namespace Minesweeper

/-! ### The independent reference adjacency count (claim C3) -/

/-- Reference adjacency count, written from the specification: the number of
grid cells distinct from `(r, c)` but within distance 1 of it in both
coordinates that hold a mine.  It scans the whole grid rather than following
the loop structure of `countAdjacentMines`. -/
def refAdjacent (rows cols : Nat) (b : Board) (r c : Nat) : Nat :=
  ((gridF rows cols).filter (fun q =>
    q ≠ (r, c) ∧ q.1 ≤ r + 1 ∧ r ≤ q.1 + 1 ∧ q.2 ≤ c + 1 ∧ c ≤ q.2 + 1 ∧
      (getc b q.1 q.2).isMine = true)).card

theorem mem_deltas8_iff {d : Int × Int} :
    d ∈ deltas8 ↔ (-1 ≤ d.1 ∧ d.1 ≤ 1 ∧ -1 ≤ d.2 ∧ d.2 ≤ 1 ∧ ¬(d.1 = 0 ∧ d.2 = 0)) := by
  constructor
  · intro h
    fin_cases h <;> norm_num
  · rintro ⟨h1, h2, h3, h4, h5⟩
    obtain ⟨d1, d2⟩ := d
    simp only at h1 h2 h3 h4 h5
    have hd1 : d1 = -1 ∨ d1 = 0 ∨ d1 = 1 := by omega
    have hd2 : d2 = -1 ∨ d2 = 0 ∨ d2 = 1 := by omega
    rcases hd1 with rfl | rfl | rfl <;> rcases hd2 with rfl | rfl | rfl <;>
      simp_all [deltas8]

theorem adjProbe_eq_true_iff {rows cols : Nat} {b : Board} {r c : Nat} {d : Int × Int} :
    adjProbe rows cols b r c d = true
      ↔ (0 ≤ (r : Int) + d.1 ∧ (r : Int) + d.1 < (rows : Int)
          ∧ 0 ≤ (c : Int) + d.2 ∧ (c : Int) + d.2 < (cols : Int))
        ∧ (getc b ((r : Int) + d.1).toNat ((c : Int) + d.2).toNat).isMine = true := by
  unfold adjProbe boundsOk
  simp [and_assoc]

/-- `countAdjacentMines` agrees with the independent whole-grid recount. -/
theorem countAdjacentMines_eq_refAdjacent {rows cols : Nat} (b : Board) (r c : Nat) :
    countAdjacentMines rows cols b r c = refAdjacent rows cols b r c := by
  classical
  unfold countAdjacentMines refAdjacent
  rw [List.countP_eq_length_filter]
  have hnd : deltas8.Nodup := by decide
  have hfnd : (deltas8.filter (adjProbe rows cols b r c)).Nodup :=
    hnd.filter (adjProbe rows cols b r c)
  have hlen : (deltas8.filter (adjProbe rows cols b r c)).length
      = (deltas8.filter (adjProbe rows cols b r c)).toFinset.card := by
    rw [List.card_toFinset, hfnd.dedup]
  rw [hlen, List.toFinset_filter]
  apply Finset.card_nbij' (fun d => (((r : Int) + d.1).toNat, ((c : Int) + d.2).toNat))
    (fun q => ((q.1 : Int) - (r : Int), (q.2 : Int) - (c : Int)))
  · intro d hd
    rw [Finset.mem_filter, List.mem_toFinset] at hd
    obtain ⟨hdmem, hdp⟩ := hd
    obtain ⟨hbd1, hbd2, hbd3, hbd4, hbd5⟩ := mem_deltas8_iff.mp hdmem
    obtain ⟨⟨hg1, hg2, hg3, hg4⟩, hmine⟩ := adjProbe_eq_true_iff.mp hdp
    rw [Finset.mem_filter, mem_gridF]
    refine ⟨⟨by omega, by omega⟩, ?_, by omega, by omega, by omega, by omega, hmine⟩
    intro heq
    have he1 := congrArg Prod.fst heq
    have he2 := congrArg Prod.snd heq
    simp only at he1 he2
    omega
  · intro q hq
    rw [Finset.mem_filter, mem_gridF] at hq
    obtain ⟨⟨hq1, hq2⟩, hne, hn1, hn2, hn3, hn4, hmine⟩ := hq
    rw [Finset.mem_filter, List.mem_toFinset, mem_deltas8_iff]
    have hne' : ¬(q.1 = r ∧ q.2 = c) := by
      intro hcon
      exact hne (Prod.ext hcon.1 hcon.2)
    refine ⟨⟨by omega, by omega, by omega, by omega, by omega⟩, ?_⟩
    rw [adjProbe_eq_true_iff]
    have e1 : ((r : Int) + ((q.1 : Int) - (r : Int))).toNat = q.1 := by omega
    have e2 : ((c : Int) + ((q.2 : Int) - (c : Int))).toNat = q.2 := by omega
    refine ⟨⟨by omega, by omega, by omega, by omega⟩, ?_⟩
    rw [e1, e2]
    exact hmine
  · intro d hd
    rw [Finset.mem_filter, List.mem_toFinset] at hd
    obtain ⟨hdmem, hdp⟩ := hd
    obtain ⟨⟨hg1, hg2, hg3, hg4⟩, _⟩ := adjProbe_eq_true_iff.mp hdp
    rw [Prod.ext_iff]
    constructor
    · simp only
      omega
    · simp only
      omega
  · intro q hq
    rw [Finset.mem_filter, mem_gridF] at hq
    obtain ⟨⟨hq1, hq2⟩, _⟩ := hq
    rw [Prod.ext_iff]
    constructor
    · simp only
      omega
    · simp only
      omega

end Minesweeper

namespace Minesweeper

/-! ### Facts about `placeMines` (claim C1) -/

theorem mem_deltas9_iff {d : Int × Int} :
    d ∈ deltas9 ↔ (-1 ≤ d.1 ∧ d.1 ≤ 1 ∧ -1 ≤ d.2 ∧ d.2 ≤ 1) := by
  constructor
  · intro h
    fin_cases h <;> norm_num
  · rintro ⟨h1, h2, h3, h4⟩
    obtain ⟨d1, d2⟩ := d
    simp only at h1 h2 h3 h4
    have hd1 : d1 = -1 ∨ d1 = 0 ∨ d1 = 1 := by omega
    have hd2 : d2 = -1 ∨ d2 = 0 ∨ d2 = 1 := by omega
    rcases hd1 with rfl | rfl | rfl <;> rcases hd2 with rfl | rfl | rfl <;>
      simp_all [deltas9]

theorem nodup_exclusionList (rows cols er ec : Nat) : (exclusionList rows cols er ec).Nodup :=
  nodup_exclStep_foldl rows cols er ec deltas9 [] List.nodup_nil

theorem exclusionList_bound {rows cols er ec : Nat} :
    ∀ x ∈ exclusionList rows cols er ec, x < rows * cols := by
  intro x hx
  rcases mem_exclStep_foldl_elim rows cols er ec deltas9 [] x hx with h | ⟨r', c', hr', hc', rfl⟩
  · cases h
  · exact lin_lt hr' hc'

theorem neighbor_mem_exclusionList {rows cols er ec : Nat} {r' c' : Nat}
    (hr' : r' < rows) (hc' : c' < cols)
    (h1 : r' ≤ er + 1) (h2 : er ≤ r' + 1) (h3 : c' ≤ ec + 1) (h4 : ec ≤ c' + 1) :
    r' * cols + c' ∈ exclusionList rows cols er ec := by
  have hd : ((r' : Int) - (er : Int), (c' : Int) - (ec : Int)) ∈ deltas9 := by
    rw [mem_deltas9_iff]
    refine ⟨?_, ?_, ?_, ?_⟩ <;> simp only <;> omega
  have h := exclStep_foldl_adds rows cols er ec deltas9 []
    ((r' : Int) - (er : Int), (c' : Int) - (ec : Int)) hd
    (by simp only; omega) (by simp only; omega) (by simp only; omega) (by simp only; omega)
  have e1 : ((er : Int) + ((r' : Int) - (er : Int))).toNat = r' := by omega
  have e2 : ((ec : Int) + ((c' : Int) - (ec : Int))).toNat = c' := by omega
  rw [e1, e2] at h
  exact h

theorem clicked_mem_exclusionList {rows cols er ec : Nat} (her : er < rows) (hec : ec < cols) :
    er * cols + ec ∈ exclusionList rows cols er ec :=
  neighbor_mem_exclusionList her hec (by omega) (by omega) (by omega) (by omega)

/-- The fallback case split of `placeMines`: either too few cells remain
outside the 3×3 neighborhood and the exclusion set shrinks to the clicked
cell, or the whole neighborhood is excluded. -/
theorem exclusions_cases (rows cols mines er ec : Nat) :
    (exclusions rows cols mines er ec = [er * cols + ec]
      ∧ rows * cols < mines + (exclusionList rows cols er ec).length)
    ∨ (exclusions rows cols mines er ec = exclusionList rows cols er ec
      ∧ mines + (exclusionList rows cols er ec).length ≤ rows * cols) := by
  simp only [exclusions]
  split
  · rename_i h
    rw [← Int.natCast_mul] at h
    left
    exact ⟨rfl, by omega⟩
  · rename_i h
    rw [← Int.natCast_mul] at h
    right
    exact ⟨rfl, by omega⟩

theorem nodup_exclusions (rows cols mines er ec : Nat) :
    (exclusions rows cols mines er ec).Nodup := by
  rcases exclusions_cases rows cols mines er ec with ⟨h, _⟩ | ⟨h, _⟩
  · rw [h]; exact List.nodup_singleton _
  · rw [h]; exact nodup_exclusionList rows cols er ec

theorem exclusions_bound {rows cols mines er ec : Nat} (her : er < rows) (hec : ec < cols) :
    ∀ x ∈ exclusions rows cols mines er ec, x < rows * cols := by
  intro x hx
  rcases exclusions_cases rows cols mines er ec with ⟨h, _⟩ | ⟨h, _⟩
  · rw [h, List.mem_singleton] at hx
    subst hx
    exact lin_lt her hec
  · rw [h] at hx
    exact exclusionList_bound x hx

theorem clicked_mem_exclusions {rows cols mines er ec : Nat}
    (her : er < rows) (hec : ec < cols) :
    er * cols + ec ∈ exclusions rows cols mines er ec := by
  rcases exclusions_cases rows cols mines er ec with ⟨h, _⟩ | ⟨h, _⟩
  · rw [h]; exact List.mem_singleton.mpr rfl
  · rw [h]; exact clicked_mem_exclusionList her hec

theorem mem_positionsList {rows cols : Nat} {ex : List Nat} {x : Nat} :
    x ∈ positionsList rows cols ex ↔ x < rows * cols ∧ x ∉ ex := by
  rw [positionsList_eq_filter, List.mem_filter, List.mem_range]
  simp

theorem nodup_positionsList (rows cols : Nat) (ex : List Nat) :
    (positionsList rows cols ex).Nodup := by
  rw [positionsList_eq_filter]
  exact (List.nodup_range _).filter _

theorem lin_div_mod {cols : Nat} (hcols : 0 < cols) (r c : Nat) (hc : c < cols) :
    (r * cols + c) / cols = r ∧ (r * cols + c) % cols = c := by
  constructor
  · rw [Nat.add_comm, Nat.mul_comm, Nat.add_mul_div_left _ _ hcols, Nat.div_eq_of_lt hc]
    omega
  · rw [Nat.add_comm, Nat.mul_comm, Nat.add_mul_mod_self_left]
    exact Nat.mod_eq_of_lt hc

/-- The indices actually marked as mines by `placeMines`. -/
def mineIdxs (rand : Nat → Nat) (rows cols mines er ec : Nat) : List Nat :=
  (shuffle rand (positionsList rows cols (exclusions rows cols mines er ec))).take mines

theorem mineIdxs_subset_positions {rand : Nat → Nat} {rows cols mines er ec : Nat} :
    ∀ x ∈ mineIdxs rand rows cols mines er ec,
      x ∈ positionsList rows cols (exclusions rows cols mines er ec) := by
  intro x hx
  have hmem := List.mem_of_mem_take hx
  exact (shuffle_perm rand _).mem_iff.mp hmem

theorem mineIdxs_bound {rand : Nat → Nat} {rows cols mines er ec : Nat} :
    ∀ x ∈ mineIdxs rand rows cols mines er ec, x < rows * cols := by
  intro x hx
  exact (mem_positionsList.mp (mineIdxs_subset_positions x hx)).1

theorem mineIdxs_nodup (rand : Nat → Nat) (rows cols mines er ec : Nat) :
    (mineIdxs rand rows cols mines er ec).Nodup := by
  have hpos := nodup_positionsList rows cols (exclusions rows cols mines er ec)
  have hshuf : (shuffle rand (positionsList rows cols (exclusions rows cols mines er ec))).Nodup :=
    (shuffle_perm rand _).nodup_iff.mpr hpos
  exact hshuf.sublist (List.take_sublist mines _)

theorem mineIdxs_length {rand : Nat → Nat} {rows cols mines er ec : Nat}
    (h0 : 0 < mines) (h1 : mines < rows * cols) (her : er < rows) (hec : ec < cols) :
    (mineIdxs rand rows cols mines er ec).length = mines := by
  unfold mineIdxs
  rw [List.length_take]
  have hlen : (shuffle rand (positionsList rows cols (exclusions rows cols mines er ec))).length
      = (positionsList rows cols (exclusions rows cols mines er ec)).length :=
    (shuffle_perm rand _).length_eq
  have hplen := positionsList_length rows cols (exclusions rows cols mines er ec)
    (nodup_exclusions rows cols mines er ec) (exclusions_bound her hec)
  have hle : mines
      ≤ (shuffle rand (positionsList rows cols (exclusions rows cols mines er ec))).length := by
    rcases exclusions_cases rows cols mines er ec with ⟨h, _⟩ | ⟨h, hge⟩
    · have hlen1 : (exclusions rows cols mines er ec).length = 1 := by
        rw [h]; rfl
      omega
    · have hlen2 : (exclusions rows cols mines er ec).length
          = (exclusionList rows cols er ec).length := by rw [h]
      omega
  exact Nat.min_eq_left hle

/-- Which cells of the freshly generated board are mines: exactly the cells
whose linearized index was drawn by the shuffle. -/
theorem placeMinesB_isMine_iff {rand : Nat → Nat} {rows cols mines er ec : Nat}
    (h1 : mines < rows * cols)
    {r c : Nat} (hr : r < rows) (hc : c < cols) :
    ((getc (placeMinesB rand rows cols mines er ec (createEmptyBoard rows cols)) r c).isMine
        = true)
      ↔ r * cols + c ∈ mineIdxs rand rows cols mines er ec := by
  have hcols : 0 < cols := by
    rcases Nat.eq_zero_or_pos cols with rfl | h
    · omega
    · exact h
  have hfold : placeMinesB rand rows cols mines er ec (createEmptyBoard rows cols)
      = (allCoords rows cols).foldl (passStep rows cols)
          ((mineIdxs rand rows cols mines er ec).foldl (setMineAt cols)
            (createEmptyBoard rows cols)) := rfl
  rw [hfold]
  rw [getc_foldl_passStep_isMine]
  rw [getc_foldl_setMineAt hcols _ (rect_createEmptyBoard rows cols)
    (fun x hx => mineIdxs_bound x hx) hr hc]
  by_cases hmem : r * cols + c ∈ mineIdxs rand rows cols mines er ec
  · rw [if_pos hmem]
    simp [hmem]
  · rw [if_neg hmem]
    rw [getc_createEmptyBoard]
    simp [hmem, emptyCell]

end Minesweeper

namespace Minesweeper

theorem placeMinesB_mineCount {rand : Nat → Nat} {rows cols mines er ec : Nat}
    (h0 : 0 < mines) (h1 : mines < rows * cols) (her : er < rows) (hec : ec < cols) :
    countGrid rows cols (fun cell => cell.isMine)
      (placeMinesB rand rows cols mines er ec (createEmptyBoard rows cols)) = mines := by
  classical
  have hcols : 0 < cols := by
    rcases Nat.eq_zero_or_pos cols with rfl | h
    · omega
    · exact h
  have hnd := mineIdxs_nodup rand rows cols mines er ec
  have hticket : (mineIdxs rand rows cols mines er ec).toFinset.card = mines := by
    rw [List.card_toFinset, hnd.dedup, mineIdxs_length h0 h1 her hec]
  unfold countGrid
  conv_rhs => rw [← hticket]
  apply Finset.card_nbij' (fun q => q.1 * cols + q.2) (fun idx => (idx / cols, idx % cols))
  · intro q hq
    rw [Finset.mem_filter, mem_gridF] at hq
    obtain ⟨⟨hg1, hg2⟩, hmine⟩ := hq
    rw [List.mem_toFinset]
    exact (placeMinesB_isMine_iff h1 hg1 hg2).mp hmine
  · intro idx hidx
    rw [List.mem_toFinset] at hidx
    have hb := mineIdxs_bound idx hidx
    have hq1 : idx / cols < rows := (Nat.div_lt_iff_lt_mul hcols).mpr hb
    have hq2 : idx % cols < cols := Nat.mod_lt _ hcols
    rw [Finset.mem_filter, mem_gridF]
    refine ⟨⟨hq1, hq2⟩, ?_⟩
    simp only
    rw [placeMinesB_isMine_iff h1 hq1 hq2]
    have hdm : idx / cols * cols + idx % cols = idx := by
      rw [Nat.mul_comm]
      exact Nat.div_add_mod idx cols
    rw [hdm]
    exact hidx
  · intro q hq
    rw [Finset.mem_filter, mem_gridF] at hq
    obtain ⟨⟨hg1, hg2⟩, _⟩ := hq
    have h := lin_div_mod hcols q.1 q.2 hg2
    rw [Prod.ext_iff]
    exact ⟨h.1, h.2⟩
  · intro idx hidx
    simp only
    rw [Nat.mul_comm]
    exact Nat.div_add_mod idx cols

/-- C1: for every configuration with `0 < mines < rows*cols` and every
in-bounds first click, `placeMines` on a fresh board (i) succeeds, placing
exactly `mines` mines, (ii) never mines the clicked cell, (iii) outside the
fallback case (`rows*cols` minus the clipped 3×3 neighborhood size at least
`mines`) leaves the whole clipped neighborhood of the click mine-free, and
(iv) in particular keeps the clicked cell mine-free even when
`rows*cols - 9 < mines < rows*cols`. -/
theorem placeMines_firstClickSafe
    (rand : Nat → Nat) (rows cols mines er ec : Nat)
    (h0 : 0 < mines) (h1 : mines < rows * cols) (her : er < rows) (hec : ec < cols) :
    countGrid rows cols (fun cell => cell.isMine)
        (placeMinesB rand rows cols mines er ec (createEmptyBoard rows cols)) = mines
    ∧ (getc (placeMinesB rand rows cols mines er ec (createEmptyBoard rows cols)) er ec).isMine
        = false
    ∧ (mines + (exclusionList rows cols er ec).length ≤ rows * cols →
        ∀ r' : Nat, r' < rows → ∀ c' : Nat, c' < cols →
          r' ≤ er + 1 → er ≤ r' + 1 → c' ≤ ec + 1 → ec ≤ c' + 1 →
          (getc (placeMinesB rand rows cols mines er ec (createEmptyBoard rows cols)) r' c').isMine
            = false)
    ∧ (rows * cols < mines + 9 →
        (getc (placeMinesB rand rows cols mines er ec (createEmptyBoard rows cols)) er ec).isMine
          = false) := by
  have hsafe : ∀ r' : Nat, r' < rows → ∀ c' : Nat, c' < cols →
      r' * cols + c' ∈ exclusions rows cols mines er ec →
      (getc (placeMinesB rand rows cols mines er ec (createEmptyBoard rows cols)) r' c').isMine
        = false := by
    intro r' hr' c' hc' hex
    by_contra hcon
    rw [Bool.not_eq_false] at hcon
    have hmem := (placeMinesB_isMine_iff h1 hr' hc').mp hcon
    have hpos := mineIdxs_subset_positions _ hmem
    exact (mem_positionsList.mp hpos).2 hex
  have hclick : (getc (placeMinesB rand rows cols mines er ec
      (createEmptyBoard rows cols)) er ec).isMine = false :=
    hsafe er her ec hec (clicked_mem_exclusions her hec)
  refine ⟨placeMinesB_mineCount h0 h1 her hec, hclick, ?_, fun _ => hclick⟩
  intro hnofall r' hr' c' hc' hn1 hn2 hn3 hn4
  have hexeq : exclusions rows cols mines er ec = exclusionList rows cols er ec := by
    rcases exclusions_cases rows cols mines er ec with ⟨_, hlt⟩ | ⟨h, _⟩
    · omega
    · exact h
  apply hsafe r' hr' c' hc'
  rw [hexeq]
  exact neighbor_mem_exclusionList hr' hc' hn1 hn2 hn3 hn4

/-- C3: after `placeMines` completes on a fresh board, every non-mine cell's
`adjacent` field equals the number of mines among its bounds-clipped
neighbors, recomputed independently over the final board. -/
theorem placeMines_adjacentCorrect
    (rand : Nat → Nat) (rows cols mines er ec : Nat)
    (h0 : 0 < mines) (h1 : mines < rows * cols) (her : er < rows) (hec : ec < cols)
    (r c : Nat) (hr : r < rows) (hc : c < cols)
    (hnm : (getc (placeMinesB rand rows cols mines er ec
      (createEmptyBoard rows cols)) r c).isMine = false) :
    (getc (placeMinesB rand rows cols mines er ec (createEmptyBoard rows cols)) r c).adjacent
      = refAdjacent rows cols
          (placeMinesB rand rows cols mines er ec (createEmptyBoard rows cols)) r c := by
  have hfold : placeMinesB rand rows cols mines er ec (createEmptyBoard rows cols)
      = (allCoords rows cols).foldl (passStep rows cols)
          ((mineIdxs rand rows cols mines er ec).foldl (setMineAt cols)
            (createEmptyBoard rows cols)) := rfl
  have hb₁ : Rect rows cols ((mineIdxs rand rows cols mines er ec).foldl (setMineAt cols)
      (createEmptyBoard rows cols)) :=
    rect_foldl_setMineAt _ (rect_createEmptyBoard rows cols)
  have hmine1 : (getc ((mineIdxs rand rows cols mines er ec).foldl (setMineAt cols)
      (createEmptyBoard rows cols)) r c).isMine = false := by
    rw [hfold, getc_foldl_passStep_isMine] at hnm
    exact hnm
  have hchar := getc_foldl_passStep rows cols (allCoords rows cols) _ hb₁
    (nodup_allCoords rows cols) (fun p hp => mem_allCoords.mp hp)
    (r, c) (mem_allCoords.mpr ⟨hr, hc⟩)
  rw [hfold]
  simp only at hchar
  rw [hchar, if_neg (by rw [hmine1]; exact Bool.false_ne_true)]
  simp only
  rw [countAdjacentMines_congr
    (fun r' c' => (getc_foldl_passStep_isMine rows cols (allCoords rows cols) _ r' c').symm) r c]
  rw [← hfold]
  exact countAdjacentMines_eq_refAdjacent _ r c

end Minesweeper

namespace Minesweeper

/-! ### Game state and the reveal engine -/

/-- The engine-relevant fields of `GameState` (`main.ts` lines 21-36).
`cellEls`, `activeRow`/`activeCol` are rendering state; `timerId`/`startTime`
are collapsed into `timerRunning` (the wall-clock-driven display update of
`elapsed` happens outside the engine operations modelled here). `flags` is an
`Int` because the counter is adjusted by `±1`. -/
structure GS where
  rows : Nat
  cols : Nat
  mines : Nat
  board : Board
  flags : Int
  openCount : Nat
  minesPlaced : Bool
  isGameOver : Bool
  didWin : Bool
  timerRunning : Bool
  elapsed : Nat
  hintsUsed : Nat
deriving DecidableEq, Repr

/-- `createInitialState(config)` (lines 124-141). -/
def createInitialState (rows cols mines : Nat) : GS :=
  { rows := rows, cols := cols, mines := mines
    board := createEmptyBoard rows cols
    flags := 0, openCount := 0, minesPlaced := false
    isGameOver := false, didWin := false
    timerRunning := false, elapsed := 0, hintsUsed := 0 }

/-- `startTimer` (lines 197-202): a no-op when the interval is active. -/
def startTimer (s : GS) : GS :=
  if s.timerRunning then s else { s with timerRunning := true }

/-- `stopTimer` (lines 204-208). -/
def stopTimer (s : GS) : GS :=
  if s.timerRunning then { s with timerRunning := false } else s

/-- The per-cell effect of `revealMines` (lines 534-547): mines are forced
open; flagged non-mines are forced open and marked as wrong flags; everything
else is untouched. -/
def revealCellXform (cell : Cell) : Cell :=
  if cell.isMine then { cell with isOpen := true }
  else if cell.isFlagged then { cell with isOpen := true, isWrongFlag := true }
  else cell

/-- `revealMines` on the board: the nested loop over all grid cells. -/
def revealMinesB (rows cols : Nat) (b : Board) : Board :=
  (allCoords rows cols).foldl (fun b' p => modc b' p.1 p.2 revealCellXform) b

/-- `endGame(didWin)` (lines 558-572): mark the game over, stop the timer
and, on a loss, reveal the mines.  (`recordWin`, status text and sounds do
not touch the game state.) -/
def endGame (didWin : Bool) (s : GS) : GS :=
  let s₂ := stopTimer { s with isGameOver := true, didWin := didWin }
  if didWin then s₂
  else { s₂ with board := revealMinesB s₂.rows s₂.cols s₂.board }

/-- `checkWin` (lines 549-556): win exactly when `openCount` reaches
`rows*cols - mines`. -/
def checkWin (s : GS) : GS × Bool :=
  if s.rows * s.cols - s.mines ≤ s.openCount then (endGame true s, true) else (s, false)

/-- One inner step of the `floodOpen` neighbor loop, acting on
`(board, openCount, stack)`. -/
def floodStep (rows cols r c : Nat) (st : Board × Nat × List (Nat × Nat))
    (d : Int × Int) : Board × Nat × List (Nat × Nat) :=
  let nr : Int := (r : Int) + d.1
  let nc : Int := (c : Int) + d.2
  if 0 ≤ nr ∧ nr < (rows : Int) ∧ 0 ≤ nc ∧ nc < (cols : Int) then
    let neighbor := getc st.1 nr.toNat nc.toNat
    if neighbor.isOpen ∨ neighbor.isFlagged ∨ neighbor.isMine then st
    else
      (modc st.1 nr.toNat nc.toNat (fun cell => { cell with isOpen := true }),
       st.2.1 + 1,
       if neighbor.adjacent = 0 then (nr.toNat, nc.toNat) :: st.2.2 else st.2.2)
  else st

/-- Processing one popped stack entry of `floodOpen`: examine the 3×3
neighborhood in source loop order. -/
def floodVisit (rows cols : Nat) (st : Board × Nat × List (Nat × Nat)) (r c : Nat) :
    Board × Nat × List (Nat × Nat) :=
  deltas9.foldl (floodStep rows cols r c) st

/-- The `while (stack.length > 0)` loop of `floodOpen`, with explicit fuel.
`floodOpen` always supplies enough fuel for the loop to drain the stack
(`floodLoopF_fuel_irrelevant` below), so the fuel-out clause is never hit. -/
def floodLoopF (rows cols : Nat) : Nat → Board × Nat × List (Nat × Nat) → Board × Nat
  | 0, (b, oc, _) => (b, oc)
  | _ + 1, (b, oc, []) => (b, oc)
  | fuel + 1, (b, oc, (r, c) :: rest) =>
      floodLoopF rows cols fuel (floodVisit rows cols (b, oc, rest) r c)

/-- Cells of the grid that are still closed (used only to size the fuel). -/
def closedGrid (rows cols : Nat) (b : Board) : Nat :=
  countGrid rows cols (fun cell => !cell.isOpen) b

/-- `floodOpen(startRow, startCol)` (lines 514-532), with the `openCount`
accumulator made explicit. -/
def floodOpen (rows cols : Nat) (b : Board) (oc : Nat) (r c : Nat) : Board × Nat :=
  floodLoopF rows cols (9 * closedGrid rows cols b + 2) (b, oc, [(r, c)])

/-- `openCell(row, col)` (lines 493-512), returning the new state and the
`opened` flag. -/
def openCell (r c : Nat) (s : GS) : GS × Bool :=
  let cell := getc s.board r c
  if cell.isOpen ∨ cell.isFlagged then (s, false)
  else
    let s₁ := { s with
      board := modc s.board r c (fun cell => { cell with isOpen := true }),
      openCount := s.openCount + 1 }
    if cell.isMine then (endGame false s₁, false)
    else if cell.adjacent = 0 then
      let fl := floodOpen s₁.rows s₁.cols s₁.board s₁.openCount r c
      ({ s₁ with board := fl.1, openCount := fl.2 }, true)
    else (s₁, true)

/-- `placeMines` acting on the session state (sets the `minesPlaced` gate). -/
def placeMines (rand : Nat → Nat) (er ec : Nat) (s : GS) : GS :=
  { s with
    board := placeMinesB rand s.rows s.cols s.mines er ec s.board,
    minesPlaced := true }

/-- `handleCellClick(row, col)` (lines 458-476). -/
def handleCellClick (rand : Nat → Nat) (r c : Nat) (s : GS) : GS :=
  if s.isGameOver then s
  else
    let cell := getc s.board r c
    if cell.isOpen ∨ cell.isFlagged then s
    else
      let s₁ := if s.minesPlaced then s else startTimer (placeMines rand r c s)
      let s₂ := (openCell r c s₁).1
      if s₂.isGameOver then s₂
      else (checkWin s₂).1

/-- `toggleFlag(row, col)` (lines 478-491). -/
def toggleFlag (r c : Nat) (s : GS) : GS :=
  if s.isGameOver then s
  else
    let cell := getc s.board r c
    if cell.isOpen then s
    else
      { s with
        board := modc s.board r c (fun cell => { cell with isFlagged := !cell.isFlagged }),
        flags := s.flags + (if !cell.isFlagged then 1 else -1) }

/-- The `zeros`/`candidates` partition scanned by `findHintCell`
(lines 660-678), in row-major order. -/
def hintPool (s : GS) : List (Nat × Nat) × List (Nat × Nat) :=
  (allCoords s.rows s.cols).foldl (fun acc p =>
    let cell := getc s.board p.1 p.2
    if cell.isOpen ∨ cell.isFlagged ∨ cell.isMine then acc
    else if cell.adjacent = 0 then (acc.1 ++ [p], acc.2)
    else (acc.1, acc.2 ++ [p])) ([], [])

/-- `findHintCell` (lines 660-678): prefer the zero-adjacency pool, fall back
to the other safe cells, pick a random element, `none` when both are empty. -/
def findHintCell (randPick : Nat) (s : GS) : Option (Nat × Nat) :=
  let pools := hintPool s
  let pool := if pools.1.length > 0 then pools.1 else pools.2
  if pool.length = 0 then none
  else some (pool.getD (randPick % pool.length) (0, 0))

/-- `handleHint` (lines 632-658): before mine placement, reveal a random cell
(bootstrap); afterwards, highlight a hint cell when one exists.  `hintsUsed`
is incremented in both productive branches but not when the pool is empty. -/
def handleHint (rand : Nat → Nat) (s : GS) : GS :=
  if s.isGameOver then s
  else if s.minesPlaced = false then
    let s₁ := handleCellClick rand (rand 0 % s.rows) (rand 1 % s.cols) s
    { s₁ with hintsUsed := s₁.hintsUsed + 1 }
  else
    match findHintCell (rand 2) s with
    | none => s
    | some _ => { s with hintsUsed := s.hintsUsed + 1 }

end Minesweeper

namespace Minesweeper

/-! ### Flood-fill invariants -/

/-- Frame relation between two stages of a flood fill: only `isOpen` ever
changes, it changes monotonically, flagged and mine cells are untouched
entirely, and the running `openCount` tracks the number of open grid cells. -/
def FloodFrame (rows cols : Nat) (b : Board) (oc : Nat) (b' : Board) (oc' : Nat) : Prop :=
  (∀ r c, (getc b' r c).isFlagged = (getc b r c).isFlagged
      ∧ (getc b' r c).isMine = (getc b r c).isMine
      ∧ (getc b' r c).adjacent = (getc b r c).adjacent
      ∧ (getc b' r c).isWrongFlag = (getc b r c).isWrongFlag)
  ∧ (∀ r c, ((getc b r c).isFlagged = true ∨ (getc b r c).isMine = true) →
      getc b' r c = getc b r c)
  ∧ (∀ r c, (getc b r c).isOpen = true → (getc b' r c).isOpen = true)
  ∧ oc' + countGrid rows cols (fun cell => cell.isOpen) b
      = oc + countGrid rows cols (fun cell => cell.isOpen) b'

theorem floodFrame_refl (rows cols : Nat) (b : Board) (oc : Nat) :
    FloodFrame rows cols b oc b oc :=
  ⟨fun _ _ => ⟨rfl, rfl, rfl, rfl⟩, fun _ _ _ => rfl, fun _ _ h => h, rfl⟩

theorem floodFrame_trans {rows cols : Nat} {b b₁ b₂ : Board} {oc oc₁ oc₂ : Nat}
    (h₁ : FloodFrame rows cols b oc b₁ oc₁) (h₂ : FloodFrame rows cols b₁ oc₁ b₂ oc₂) :
    FloodFrame rows cols b oc b₂ oc₂ := by
  obtain ⟨f1, f2, f3, f4⟩ := h₁
  obtain ⟨g1, g2, g3, g4⟩ := h₂
  refine ⟨?_, ?_, ?_, ?_⟩
  · intro r c
    obtain ⟨a1, a2, a3, a4⟩ := f1 r c
    obtain ⟨b1, b2, b3, b4⟩ := g1 r c
    exact ⟨b1.trans a1, b2.trans a2, b3.trans a3, b4.trans a4⟩
  · intro r c h
    have hmid := f2 r c h
    have h' : (getc b₁ r c).isFlagged = true ∨ (getc b₁ r c).isMine = true := by
      rw [hmid]; exact h
    rw [g2 r c h', hmid]
  · intro r c h
    exact g3 r c (f3 r c h)
  · omega

/-- One neighbor examination of `floodOpen` preserves the frame relation and
the board shape. -/
theorem floodStep_frame {rows cols : Nat} (r c : Nat) (st : Board × Nat × List (Nat × Nat))
    (d : Int × Int) (hrect : Rect rows cols st.1) :
    FloodFrame rows cols st.1 st.2.1 (floodStep rows cols r c st d).1
        (floodStep rows cols r c st d).2.1
      ∧ Rect rows cols (floodStep rows cols r c st d).1 := by
  simp only [floodStep]
  split
  · rename_i hbound
    split
    · exact ⟨floodFrame_refl .., hrect⟩
    · rename_i hfree
      push_neg at hfree
      obtain ⟨hopen, hflag, hmine⟩ := hfree
      set nr := ((r : Int) + d.1).toNat with hnr
      set nc := ((c : Int) + d.2).toNat with hnc
      show FloodFrame rows cols st.1 st.2.1
          (modc st.1 nr nc (fun cell => { cell with isOpen := true })) (st.2.1 + 1)
        ∧ Rect rows cols (modc st.1 nr nc (fun cell => { cell with isOpen := true }))
      have hnrlt : nr < rows := by omega
      have hnclt : nc < cols := by omega
      have hinb : inb st.1 nr nc := inb_of_rect hrect hnrlt hnclt
      refine ⟨⟨?_, ?_, ?_, ?_⟩, rect_modc hrect _ _ _⟩
      · intro r' c'
        rcases getc_modc_cases st.1 nr nc (fun cell => { cell with isOpen := true }) r' c' with
          h | ⟨rfl, rfl, h⟩
        · rw [h]
          exact ⟨rfl, rfl, rfl, rfl⟩
        · rw [h]
          exact ⟨rfl, rfl, rfl, rfl⟩
      · intro r' c' h
        have hne : nr ≠ r' ∨ nc ≠ c' := by
          by_contra hcon
          push_neg at hcon
          obtain ⟨h1, h2⟩ := hcon
          rw [← h1, ← h2] at h
          rcases h with h | h
          · rw [h] at hflag
            exact hflag rfl
          · rw [h] at hmine
            exact hmine rfl
        exact getc_modc_ne hne _
      · intro r' c' h
        rcases getc_modc_cases st.1 nr nc (fun cell => { cell with isOpen := true }) r' c' with
          hcase | ⟨rfl, rfl, hcase⟩
        · rw [hcase]; exact h
        · rw [hcase]
      · have hcnt := @countGrid_modc _ _ (fun cell => cell.isOpen) _ _ _ hnrlt hnclt hinb
          (fun cell => { cell with isOpen := true })
        rw [if_neg hopen, if_pos rfl] at hcnt
        omega
  · exact ⟨floodFrame_refl .., hrect⟩

theorem floodVisit_frame {rows cols : Nat} (r c : Nat)
    (st : Board × Nat × List (Nat × Nat)) (hrect : Rect rows cols st.1) :
    FloodFrame rows cols st.1 st.2.1 (floodVisit rows cols st r c).1
        (floodVisit rows cols st r c).2.1
      ∧ Rect rows cols (floodVisit rows cols st r c).1 := by
  unfold floodVisit
  generalize deltas9 = ds
  induction ds generalizing st with
  | nil => exact ⟨floodFrame_refl .., hrect⟩
  | cons d ds ih =>
    rw [List.foldl_cons]
    obtain ⟨hf, hr⟩ := floodStep_frame r c st d hrect
    obtain ⟨hf', hr'⟩ := ih (floodStep rows cols r c st d) hr
    exact ⟨floodFrame_trans hf hf', hr'⟩

theorem floodLoopF_frame {rows cols : Nat} :
    ∀ (fuel : Nat) (st : Board × Nat × List (Nat × Nat)), Rect rows cols st.1 →
      FloodFrame rows cols st.1 st.2.1 (floodLoopF rows cols fuel st).1
          (floodLoopF rows cols fuel st).2
        ∧ Rect rows cols (floodLoopF rows cols fuel st).1 := by
  intro fuel
  induction fuel with
  | zero =>
    rintro ⟨b, oc, stack⟩ hrect
    exact ⟨floodFrame_refl .., hrect⟩
  | succ fuel ih =>
    rintro ⟨b, oc, stack⟩ hrect
    match stack with
    | [] => exact ⟨floodFrame_refl .., hrect⟩
    | (r, c) :: rest =>
      obtain ⟨hf, hr⟩ := floodVisit_frame r c (b, oc, rest) hrect
      obtain ⟨hf', hr'⟩ := ih (floodVisit rows cols (b, oc, rest) r c) hr
      exact ⟨floodFrame_trans hf hf', hr'⟩

/-- The full `floodOpen` call satisfies the frame relation. -/
theorem floodOpen_frame {rows cols : Nat} (b : Board) (oc : Nat) (r c : Nat)
    (hrect : Rect rows cols b) :
    FloodFrame rows cols b oc (floodOpen rows cols b oc r c).1
        (floodOpen rows cols b oc r c).2
      ∧ Rect rows cols (floodOpen rows cols b oc r c).1 := by
  unfold floodOpen
  exact floodLoopF_frame _ (b, oc, [(r, c)]) hrect

end Minesweeper

namespace Minesweeper

/-! ### The flood-fill loop always drains its stack within the supplied fuel -/

theorem floodStep_measure {rows cols : Nat} (r c : Nat) (st : Board × Nat × List (Nat × Nat))
    (d : Int × Int) (hrect : Rect rows cols st.1) :
    ∃ k, closedGrid rows cols st.1 = closedGrid rows cols (floodStep rows cols r c st d).1 + k
      ∧ (floodStep rows cols r c st d).2.2.length ≤ st.2.2.length + k ∧ k ≤ 1 := by
  simp only [floodStep]
  split
  · rename_i hbound
    split
    · exact ⟨0, by omega, by omega, by omega⟩
    · rename_i hfree
      push_neg at hfree
      obtain ⟨hopen, _, _⟩ := hfree
      set nr := ((r : Int) + d.1).toNat with hnr
      set nc := ((c : Int) + d.2).toNat with hnc
      refine ⟨1, ?_, ?_, le_refl 1⟩
      · show closedGrid rows cols st.1
          = closedGrid rows cols (modc st.1 nr nc (fun cell => { cell with isOpen := true })) + 1
        have hnrlt : nr < rows := by omega
        have hnclt : nc < cols := by omega
        have hinb : inb st.1 nr nc := inb_of_rect hrect hnrlt hnclt
        have hcnt := @countGrid_modc _ _ (fun cell => !cell.isOpen) _ _ _ hnrlt hnclt hinb
          (fun cell => { cell with isOpen := true })
        have hopen' : (getc st.1 nr nc).isOpen = false := by
          cases h : (getc st.1 nr nc).isOpen
          · rfl
          · exact absurd h hopen
        rw [if_pos (show (!(getc st.1 nr nc).isOpen) = true by rw [hopen']; rfl),
          if_neg (by simp)] at hcnt
        unfold closedGrid
        omega
      · show (if (getc st.1 nr nc).adjacent = 0 then (nr, nc) :: st.2.2 else st.2.2).length
          ≤ st.2.2.length + 1
        split <;> simp
  · exact ⟨0, by omega, by omega, by omega⟩

theorem floodVisit_measure {rows cols : Nat} (r c : Nat)
    (st : Board × Nat × List (Nat × Nat)) (hrect : Rect rows cols st.1) :
    ∃ k, closedGrid rows cols st.1 = closedGrid rows cols (floodVisit rows cols st r c).1 + k
      ∧ (floodVisit rows cols st r c).2.2.length ≤ st.2.2.length + k := by
  unfold floodVisit
  generalize deltas9 = ds
  induction ds generalizing st with
  | nil => exact ⟨0, by rw [List.foldl_nil]; omega, by rw [List.foldl_nil]; omega⟩
  | cons d ds ih =>
    rw [List.foldl_cons]
    obtain ⟨k₁, hk₁, hl₁, _⟩ := floodStep_measure r c st d hrect
    have hrect' : Rect rows cols (floodStep rows cols r c st d).1 :=
      (floodStep_frame r c st d hrect).2
    obtain ⟨k₂, hk₂, hl₂⟩ := ih (floodStep rows cols r c st d) hrect'
    exact ⟨k₁ + k₂, by omega, by omega⟩

/-- Any two sufficient fuel values drive the `floodOpen` loop to the same
result: the loop always drains the stack before the fuel runs out. -/
theorem floodLoopF_fuel_irrelevant {rows cols : Nat} :
    ∀ (fuel₁ fuel₂ : Nat) (st : Board × Nat × List (Nat × Nat)), Rect rows cols st.1 →
      9 * closedGrid rows cols st.1 + st.2.2.length < fuel₁ →
      9 * closedGrid rows cols st.1 + st.2.2.length < fuel₂ →
      floodLoopF rows cols fuel₁ st = floodLoopF rows cols fuel₂ st := by
  intro fuel₁
  induction fuel₁ with
  | zero =>
    intro fuel₂ st _ h1 _
    omega
  | succ n ih =>
    intro fuel₂ st hrect h1 h2
    obtain ⟨m, rfl⟩ : ∃ m, fuel₂ = m + 1 := by
      cases fuel₂ with
      | zero => omega
      | succ m => exact ⟨m, rfl⟩
    obtain ⟨b, oc, stack⟩ := st
    match stack with
    | [] => rfl
    | (r, c) :: rest =>
      show floodLoopF rows cols n (floodVisit rows cols (b, oc, rest) r c)
        = floodLoopF rows cols m (floodVisit rows cols (b, oc, rest) r c)
      have hrect' : Rect rows cols (floodVisit rows cols (b, oc, rest) r c).1 :=
        (floodVisit_frame r c (b, oc, rest) hrect).2
      obtain ⟨k, hk, hl⟩ := floodVisit_measure r c (b, oc, rest) hrect
      simp only at hk hl h1 h2
      have hmlt : 9 * closedGrid rows cols (floodVisit rows cols (b, oc, rest) r c).1
          + (floodVisit rows cols (b, oc, rest) r c).2.2.length < n := by
        rw [List.length_cons] at h1
        omega
      have hmlt₂ : 9 * closedGrid rows cols (floodVisit rows cols (b, oc, rest) r c).1
          + (floodVisit rows cols (b, oc, rest) r c).2.2.length < m := by
        rw [List.length_cons] at h2
        omega
      exact ih m (floodVisit rows cols (b, oc, rest) r c) hrect' hmlt hmlt₂

/-- `floodOpen` computes the limit of the loop: any larger fuel gives the
same answer, i.e. the `while` loop terminates with the stack drained. -/
theorem floodOpen_eq_floodLoopF {rows cols : Nat} (b : Board) (oc : Nat) (r c : Nat)
    (hrect : Rect rows cols b) (fuel : Nat)
    (hfuel : 9 * closedGrid rows cols b + 1 < fuel) :
    floodOpen rows cols b oc r c = floodLoopF rows cols fuel (b, oc, [(r, c)]) := by
  unfold floodOpen
  apply floodLoopF_fuel_irrelevant _ _ _ hrect
  · simp only [List.length_cons, List.length_nil]
    omega
  · simp only [List.length_cons, List.length_nil]
    omega

end Minesweeper

namespace Minesweeper

/-! ### `revealMines` and `endGame` -/

theorem inb_modc (b : Board) (r c : Nat) (f : Cell → Cell) (r' c' : Nat) :
    inb (modc b r c f) r' c' ↔ inb b r' c' := by
  unfold inb
  rw [length_modc, getRow_length_modc]

/-- Folding a fixed per-cell transform over distinct coordinates, viewed
through `getc`. -/
theorem getc_foldl_modc_pure (f : Cell → Cell) (coords : List (Nat × Nat)) :
    ∀ (b : Board), coords.Nodup → ∀ r c,
      getc (coords.foldl (fun b' p => modc b' p.1 p.2 f) b) r c
        = if (r, c) ∈ coords ∧ inb b r c then f (getc b r c) else getc b r c := by
  induction coords with
  | nil =>
    intro b _ r c
    rw [List.foldl_nil, if_neg (by rintro ⟨h, _⟩; cases h)]
  | cons p ps ih =>
    intro b hnd r c
    rw [List.foldl_cons]
    have hnd' := (List.nodup_cons.mp hnd).2
    have hnp := (List.nodup_cons.mp hnd).1
    rw [ih (modc b p.1 p.2 f) hnd' r c]
    by_cases hp : p = (r, c)
    · have hp1 : p.1 = r := by rw [hp]
      have hp2 : p.2 = c := by rw [hp]
      rw [hp1, hp2]
      have hnotin : (r, c) ∉ ps := by
        intro h
        rw [hp] at hnp
        exact hnp h
      rw [if_neg (by rintro ⟨h, _⟩; exact hnotin h)]
      by_cases hinb : inb b r c
      · rw [getc_modc_self hinb,
          if_pos ⟨List.mem_cons.mpr (Or.inl hp.symm), hinb⟩]
      · rw [modc_out hinb, if_neg (by rintro ⟨_, h⟩; exact hinb h)]
    · have hne : p.1 ≠ r ∨ p.2 ≠ c := by
        by_contra hcon
        push_neg at hcon
        exact hp (Prod.ext hcon.1 hcon.2)
      rw [getc_modc_ne hne]
      simp only [inb_modc]
      by_cases hmem : (r, c) ∈ ps
      · by_cases hinb : inb b r c
        · rw [if_pos ⟨hmem, hinb⟩, if_pos ⟨List.mem_cons_of_mem p hmem, hinb⟩]
        · rw [if_neg (by rintro ⟨_, h⟩; exact hinb h),
            if_neg (by rintro ⟨_, h⟩; exact hinb h)]
      · have hnotc : (r, c) ∉ p :: ps := by
          intro h
          rcases List.mem_cons.mp h with h | h
          · exact hp h.symm
          · exact hmem h
        rw [if_neg (by rintro ⟨h, _⟩; exact hmem h),
          if_neg (by rintro ⟨h, _⟩; exact hnotc h)]

theorem getc_revealMinesB {rows cols : Nat} {b : Board} (hrect : Rect rows cols b)
    {r c : Nat} (hr : r < rows) (hc : c < cols) :
    getc (revealMinesB rows cols b) r c = revealCellXform (getc b r c) := by
  unfold revealMinesB
  rw [getc_foldl_modc_pure revealCellXform (allCoords rows cols) b (nodup_allCoords rows cols),
    if_pos ⟨mem_allCoords.mpr ⟨hr, hc⟩, inb_of_rect hrect hr hc⟩]

theorem getc_revealMinesB_cases (rows cols : Nat) (b : Board) (r c : Nat) :
    getc (revealMinesB rows cols b) r c = revealCellXform (getc b r c)
      ∨ getc (revealMinesB rows cols b) r c = getc b r c := by
  unfold revealMinesB
  rw [getc_foldl_modc_pure revealCellXform (allCoords rows cols) b (nodup_allCoords rows cols)]
  split
  · exact Or.inl rfl
  · exact Or.inr rfl

theorem revealCellXform_fields (cell : Cell) :
    (revealCellXform cell).isMine = cell.isMine
    ∧ (revealCellXform cell).isFlagged = cell.isFlagged
    ∧ (revealCellXform cell).adjacent = cell.adjacent
    ∧ (cell.isOpen = true → (revealCellXform cell).isOpen = true) := by
  unfold revealCellXform
  split
  · exact ⟨rfl, rfl, rfl, fun _ => rfl⟩
  · split
    · exact ⟨rfl, rfl, rfl, fun _ => rfl⟩
    · exact ⟨rfl, rfl, rfl, fun h => h⟩

theorem rect_revealMinesB {rows cols rows' cols' : Nat} {b : Board}
    (hrect : Rect rows cols b) : Rect rows cols (revealMinesB rows' cols' b) := by
  unfold revealMinesB
  generalize allCoords rows' cols' = coords
  induction coords generalizing b with
  | nil => exact hrect
  | cons p ps ih =>
    rw [List.foldl_cons]
    exact ih (rect_modc hrect _ _ _)

/-- `endGame` in closed form. -/
theorem endGame_spec (w : Bool) (s : GS) :
    endGame w s = { s with
      isGameOver := true
      didWin := w
      timerRunning := false
      board := if w then s.board else revealMinesB s.rows s.cols s.board } := by
  obtain ⟨rows, cols, mines, board, flags, oc, mp, go, dw, tr, el, hu⟩ := s
  unfold endGame stopTimer
  cases tr <;> cases w <;> rfl

end Minesweeper

namespace Minesweeper

/-! ### Field-preservation lemmas for the session operations -/

theorem endGame_const (w : Bool) (s : GS) :
    (endGame w s).rows = s.rows ∧ (endGame w s).cols = s.cols
    ∧ (endGame w s).mines = s.mines ∧ (endGame w s).flags = s.flags
    ∧ (endGame w s).openCount = s.openCount
    ∧ (endGame w s).minesPlaced = s.minesPlaced
    ∧ (endGame w s).hintsUsed = s.hintsUsed
    ∧ (endGame w s).isGameOver = true ∧ (endGame w s).didWin = w := by
  rw [endGame_spec]
  exact ⟨rfl, rfl, rfl, rfl, rfl, rfl, rfl, rfl, rfl⟩

theorem openCell_const (r c : Nat) (s : GS) :
    (openCell r c s).1.rows = s.rows ∧ (openCell r c s).1.cols = s.cols
    ∧ (openCell r c s).1.mines = s.mines ∧ (openCell r c s).1.flags = s.flags
    ∧ (openCell r c s).1.minesPlaced = s.minesPlaced
    ∧ (openCell r c s).1.hintsUsed = s.hintsUsed := by
  simp only [openCell]
  split
  · exact ⟨rfl, rfl, rfl, rfl, rfl, rfl⟩
  · split
    · simp [endGame_spec]
    · split
      · exact ⟨rfl, rfl, rfl, rfl, rfl, rfl⟩
      · exact ⟨rfl, rfl, rfl, rfl, rfl, rfl⟩

theorem checkWin_const (s : GS) :
    (checkWin s).1.rows = s.rows ∧ (checkWin s).1.cols = s.cols
    ∧ (checkWin s).1.mines = s.mines ∧ (checkWin s).1.flags = s.flags
    ∧ (checkWin s).1.openCount = s.openCount
    ∧ (checkWin s).1.minesPlaced = s.minesPlaced
    ∧ (checkWin s).1.hintsUsed = s.hintsUsed
    ∧ (checkWin s).1.board = s.board := by
  unfold checkWin
  split
  · rw [endGame_spec]
    exact ⟨rfl, rfl, rfl, rfl, rfl, rfl, rfl, rfl⟩
  · exact ⟨rfl, rfl, rfl, rfl, rfl, rfl, rfl, rfl⟩

theorem handleCellClick_const (rand : Nat → Nat) (r c : Nat) (s : GS) :
    (handleCellClick rand r c s).rows = s.rows
    ∧ (handleCellClick rand r c s).cols = s.cols
    ∧ (handleCellClick rand r c s).mines = s.mines
    ∧ (handleCellClick rand r c s).flags = s.flags
    ∧ (handleCellClick rand r c s).hintsUsed = s.hintsUsed := by
  simp only [handleCellClick]
  split
  · exact ⟨rfl, rfl, rfl, rfl, rfl⟩
  · split
    · exact ⟨rfl, rfl, rfl, rfl, rfl⟩
    · set s₁ := if s.minesPlaced = true then s
        else startTimer (placeMines rand r c s) with hs₁
      have hconst₁ : s₁.rows = s.rows ∧ s₁.cols = s.cols ∧ s₁.mines = s.mines
          ∧ s₁.flags = s.flags ∧ s₁.hintsUsed = s.hintsUsed := by
        rw [hs₁]
        split
        · exact ⟨rfl, rfl, rfl, rfl, rfl⟩
        · unfold startTimer placeMines
          split
          · exact ⟨rfl, rfl, rfl, rfl, rfl⟩
          · exact ⟨rfl, rfl, rfl, rfl, rfl⟩
      obtain ⟨e1, e2, e3, e4, e5⟩ := hconst₁
      obtain ⟨o1, o2, o3, o4, _, o6⟩ := openCell_const r c s₁
      obtain ⟨w1, w2, w3, w4, _, _, w7, _⟩ := checkWin_const (openCell r c s₁).1
      split
      · exact ⟨o1.trans e1, o2.trans e2, o3.trans e3, o4.trans e4, o6.trans e5⟩
      · exact ⟨w1.trans (o1.trans e1), w2.trans (o2.trans e2), w3.trans (o3.trans e3),
          w4.trans (o4.trans e4), w7.trans (o6.trans e5)⟩

theorem toggleFlag_const (r c : Nat) (s : GS) :
    (toggleFlag r c s).rows = s.rows ∧ (toggleFlag r c s).cols = s.cols
    ∧ (toggleFlag r c s).mines = s.mines
    ∧ (toggleFlag r c s).openCount = s.openCount
    ∧ (toggleFlag r c s).hintsUsed = s.hintsUsed
    ∧ (toggleFlag r c s).isGameOver = s.isGameOver
    ∧ (toggleFlag r c s).didWin = s.didWin
    ∧ (toggleFlag r c s).minesPlaced = s.minesPlaced := by
  simp only [toggleFlag]
  split
  · exact ⟨rfl, rfl, rfl, rfl, rfl, rfl, rfl, rfl⟩
  · split
    · exact ⟨rfl, rfl, rfl, rfl, rfl, rfl, rfl, rfl⟩
    · exact ⟨rfl, rfl, rfl, rfl, rfl, rfl, rfl, rfl⟩

end Minesweeper

namespace Minesweeper

/-- C8: `floodOpen` only ever opens cells that were unopened, unflagged and
non-mine at the moment they are examined: flagged and mine cells are left
with all their fields untouched, no cell's flag/mine status changes, opening
is monotone, and `openCount` grows by exactly the number of newly opened
cells (each opened cell is counted exactly once). -/
theorem floodOpen_opensOnlySafeCells (rows cols : Nat) (b : Board) (oc r c : Nat)
    (hrect : Rect rows cols b) :
    (∀ r' c', ((getc b r' c').isFlagged = true ∨ (getc b r' c').isMine = true) →
        getc (floodOpen rows cols b oc r c).1 r' c' = getc b r' c')
    ∧ (∀ r' c',
        (getc (floodOpen rows cols b oc r c).1 r' c').isFlagged = (getc b r' c').isFlagged
        ∧ (getc (floodOpen rows cols b oc r c).1 r' c').isMine = (getc b r' c').isMine)
    ∧ (∀ r' c', (getc b r' c').isOpen = true →
        (getc (floodOpen rows cols b oc r c).1 r' c').isOpen = true)
    ∧ (floodOpen rows cols b oc r c).2
          + countGrid rows cols (fun cell => cell.isOpen) b
        = oc + countGrid rows cols (fun cell => cell.isOpen) (floodOpen rows cols b oc r c).1 := by
  obtain ⟨⟨h1, h2, h3, h4⟩, _⟩ := floodOpen_frame b oc r c hrect
  exact ⟨h2, fun r' c' => ⟨(h1 r' c').1, (h1 r' c').2.1⟩, h3, h4⟩

/-- C5: on a rectangular board, `revealMines` forces every mine cell open
(leaving its other fields alone), forces every flagged non-mine cell open
with `isWrongFlag` set (leaving its other fields alone), and leaves every
unflagged non-mine cell completely unchanged. -/
theorem revealMines_spec (rows cols : Nat) (b : Board) (hrect : Rect rows cols b)
    (r c : Nat) (hr : r < rows) (hc : c < cols) :
    ((getc b r c).isMine = true →
      getc (revealMinesB rows cols b) r c = { getc b r c with isOpen := true })
    ∧ ((getc b r c).isMine = false → (getc b r c).isFlagged = true →
      getc (revealMinesB rows cols b) r c
        = { getc b r c with isOpen := true, isWrongFlag := true })
    ∧ ((getc b r c).isMine = false → (getc b r c).isFlagged = false →
      getc (revealMinesB rows cols b) r c = getc b r c) := by
  rw [getc_revealMinesB hrect hr hc]
  unfold revealCellXform
  refine ⟨?_, ?_, ?_⟩
  · intro hm
    rw [if_pos hm]
  · intro hm hf
    rw [if_neg (by rw [hm]; exact Bool.false_ne_true), if_pos hf]
  · intro hm hf
    rw [if_neg (by rw [hm]; exact Bool.false_ne_true),
      if_neg (by rw [hf]; exact Bool.false_ne_true)]

/-- C6: once the session is terminal, `handleCellClick` and `toggleFlag`
return the state entirely unchanged — silent no-ops on every field. -/
theorem terminal_ops_noop (rand : Nat → Nat) (r c : Nat) (s : GS)
    (h : s.isGameOver = true) :
    handleCellClick rand r c s = s ∧ toggleFlag r c s = s := by
  constructor
  · unfold handleCellClick
    rw [if_pos h]
  · unfold toggleFlag
    rw [if_pos h]

/-- C7: `openCell` on an already-open or flagged cell returns `false` and
changes nothing; moreover, after any `openCell` call on an in-bounds cell a
second `openCell` at the same coordinates is such a no-op (in particular the
second open of a zero-adjacency cell after its flood expansion changes
neither `openCount` nor any cell). -/
theorem openCell_idempotent (r c : Nat) (s : GS)
    (hrect : Rect s.rows s.cols s.board) (hr : r < s.rows) (hc : c < s.cols) :
    (((getc s.board r c).isOpen = true ∨ (getc s.board r c).isFlagged = true) →
      openCell r c s = (s, false))
    ∧ openCell r c (openCell r c s).1 = ((openCell r c s).1, false) := by
  have hnoop : ∀ t : GS, ((getc t.board r c).isOpen = true ∨ (getc t.board r c).isFlagged = true) →
      openCell r c t = (t, false) := by
    intro t ht
    unfold openCell
    rw [if_pos ht]
  refine ⟨hnoop s, ?_⟩
  apply hnoop
  show (getc (openCell r c s).1.board r c).isOpen = true
    ∨ (getc (openCell r c s).1.board r c).isFlagged = true
  by_cases hguard : (getc s.board r c).isOpen = true ∨ (getc s.board r c).isFlagged = true
  · rw [hnoop s hguard]
    exact hguard
  · have hinb : inb s.board r c := inb_of_rect hrect hr hc
    have hopen₁ : (getc (modc s.board r c
        (fun cell => { cell with isOpen := true })) r c).isOpen = true := by
      rw [getc_modc_self hinb]
    left
    simp only [openCell]
    rw [if_neg hguard]
    push_neg at hguard
    have hmine : (getc s.board r c).isMine = false ∨ (getc s.board r c).isMine = true :=
      Bool.dichotomy _
    rcases hmine with hmine | hmine
    swap
    · rw [if_pos hmine]
      rw [endGame_spec]
      simp only
      rw [if_neg Bool.false_ne_true]
      rcases getc_revealMinesB_cases s.rows s.cols
        (modc s.board r c (fun cell => { cell with isOpen := true })) r c with hcase | hcase
      · rw [hcase]
        exact (revealCellXform_fields _).2.2.2 hopen₁
      · rw [hcase]
        exact hopen₁
    · rw [if_neg (by rw [hmine]; exact Bool.false_ne_true)]
      split
      · simp only
        have hrect₁ : Rect s.rows s.cols (modc s.board r c
            (fun cell => { cell with isOpen := true })) := rect_modc hrect _ _ _
        obtain ⟨⟨hf1, _, hf3, _⟩, _⟩ := floodOpen_frame
          (modc s.board r c (fun cell => { cell with isOpen := true }))
          (s.openCount + 1) r c hrect₁
        exact hf3 r c hopen₁
      · exact hopen₁

end Minesweeper

namespace Minesweeper

/-- A non-terminal session state whose hint pool is empty: the only safe cell
is flagged, every other cell is a mine. -/
def hintEmptyPoolState : GS :=
  { rows := 1, cols := 2, mines := 1
    board := [[{ isMine := false, isOpen := false, isFlagged := true, adjacent := 1,
                 isWrongFlag := false },
               { isMine := true, isOpen := false, isFlagged := false, adjacent := 0,
                 isWrongFlag := false }]]
    flags := 1, openCount := 0, minesPlaced := true
    isGameOver := false, didWin := false
    timerRunning := true, elapsed := 0, hintsUsed := 0 }

/-- C4 (counterexample): a hint invocation in a non-terminal state need not
increment `hintsUsed` — when every safe cell is flagged the hint pool is
empty and `handleHint` returns without touching the counter. -/
theorem handleHint_emptyPool_noIncrement :
    hintEmptyPoolState.isGameOver = false
    ∧ (handleHint (fun _ => 0) hintEmptyPoolState).hintsUsed = hintEmptyPoolState.hintsUsed := by
  constructor
  · rfl
  · decide

/-- C4 (amended): in a non-terminal state a hint invocation increments
`hintsUsed` by exactly one whenever it does anything (the bootstrap first
reveal, or a hint cell is found); when mines are placed and the hint pool is
empty the counter is unchanged; the counter never decreases under any engine
operation; and it is 0 in a freshly created session. -/
theorem handleHint_hintsUsed (rand : Nat → Nat) (s : GS) (h : s.isGameOver = false) :
    ((s.minesPlaced = false ∨ findHintCell (rand 2) s ≠ none) →
      (handleHint rand s).hintsUsed = s.hintsUsed + 1)
    ∧ (s.minesPlaced = true → findHintCell (rand 2) s = none →
      (handleHint rand s).hintsUsed = s.hintsUsed)
    ∧ (∀ (t : GS) (rand' : Nat → Nat) (r c : Nat),
        t.hintsUsed ≤ (handleCellClick rand' r c t).hintsUsed
        ∧ t.hintsUsed ≤ (toggleFlag r c t).hintsUsed
        ∧ t.hintsUsed ≤ (handleHint rand' t).hintsUsed)
    ∧ (∀ rows cols mines, (createInitialState rows cols mines).hintsUsed = 0) := by
  have hmono : ∀ (t : GS) (rand' : Nat → Nat) (r c : Nat),
      t.hintsUsed ≤ (handleCellClick rand' r c t).hintsUsed
      ∧ t.hintsUsed ≤ (toggleFlag r c t).hintsUsed
      ∧ t.hintsUsed ≤ (handleHint rand' t).hintsUsed := by
    intro t rand' r c
    refine ⟨?_, ?_, ?_⟩
    · rw [(handleCellClick_const rand' r c t).2.2.2.2]
    · rw [(toggleFlag_const r c t).2.2.2.2.1]
    · unfold handleHint
      split
      · exact le_refl _
      · split
        · show t.hintsUsed ≤ (handleCellClick rand' (rand' 0 % t.rows) (rand' 1 % t.cols)
            t).hintsUsed + 1
          rw [(handleCellClick_const rand' _ _ t).2.2.2.2]
          omega
        · split
          · exact le_refl _
          · show t.hintsUsed ≤ t.hintsUsed + 1
            omega
  refine ⟨?_, ?_, hmono, fun _ _ _ => rfl⟩
  · intro hcase
    unfold handleHint
    rw [if_neg (by rw [h]; exact Bool.false_ne_true)]
    by_cases hmp : s.minesPlaced = false
    · rw [if_pos hmp]
      show (handleCellClick rand (rand 0 % s.rows) (rand 1 % s.cols) s).hintsUsed + 1
        = s.hintsUsed + 1
      rw [(handleCellClick_const rand _ _ s).2.2.2.2]
    · rw [if_neg hmp]
      have hsome : findHintCell (rand 2) s ≠ none := by
        rcases hcase with hcase | hcase
        · exact absurd hcase hmp
        · exact hcase
      rcases hfind : findHintCell (rand 2) s with _ | p
      · exact absurd hfind hsome
      · rfl
  · intro hmp hnone
    unfold handleHint
    rw [if_neg (by rw [h]; exact Bool.false_ne_true),
      if_neg (by rw [hmp]; decide), hnone]

end Minesweeper

namespace Minesweeper

/-! ### Counting lemmas for the win condition -/

theorem countGrid_mono {rows cols : Nat} {p q : Cell → Bool} {b : Board}
    (h : ∀ r, r < rows → ∀ c, c < cols →
      p (getc b r c) = true → q (getc b r c) = true) :
    countGrid rows cols p b ≤ countGrid rows cols q b := by
  unfold countGrid
  apply Finset.card_le_card
  intro x hx
  rw [Finset.mem_filter] at hx ⊢
  obtain ⟨hg, hp⟩ := hx
  have hb := mem_gridF.mp hg
  exact ⟨hg, h x.1 hb.1 x.2 hb.2 hp⟩

theorem countGrid_compl (rows cols : Nat) (p : Cell → Bool) (b : Board) :
    countGrid rows cols p b + countGrid rows cols (fun cell => !p cell) b = rows * cols := by
  classical
  unfold countGrid
  have h := @Finset.filter_card_add_filter_neg_card_eq_card _ (gridF rows cols)
    (fun q => p (getc b q.1 q.2) = true) _ _
  rw [card_gridF] at h
  rw [← h]
  congr 2
  apply Finset.filter_congr
  intro q _
  simp

theorem countGrid_forcing {rows cols : Nat} {p q : Cell → Bool} {b : Board}
    (hsub : ∀ r, r < rows → ∀ c, c < cols →
      p (getc b r c) = true → q (getc b r c) = true)
    (hcard : countGrid rows cols q b ≤ countGrid rows cols p b) :
    ∀ r, r < rows → ∀ c, c < cols →
      q (getc b r c) = true → p (getc b r c) = true := by
  classical
  have hsubset : (gridF rows cols).filter (fun x => p (getc b x.1 x.2) = true)
      ⊆ (gridF rows cols).filter (fun x => q (getc b x.1 x.2) = true) := by
    intro x hx
    rw [Finset.mem_filter] at hx ⊢
    obtain ⟨hg, hp⟩ := hx
    have hb := mem_gridF.mp hg
    exact ⟨hg, hsub x.1 hb.1 x.2 hb.2 hp⟩
  have heq := Finset.eq_of_subset_of_card_le hsubset hcard
  intro r hr c hc hq
  have hmem : (r, c) ∈ (gridF rows cols).filter (fun x => q (getc b x.1 x.2) = true) :=
    Finset.mem_filter.mpr ⟨mem_gridF.mpr ⟨hr, hc⟩, hq⟩
  rw [← heq] at hmem
  exact (Finset.mem_filter.mp hmem).2

theorem countGrid_revealMinesB (rows cols rows' cols' : Nat) (p : Cell → Bool) (b : Board)
    (hp : ∀ cell, p (revealCellXform cell) = p cell) :
    countGrid rows cols p (revealMinesB rows' cols' b) = countGrid rows cols p b := by
  apply countGrid_congr
  intro r hr c hc
  rcases getc_revealMinesB_cases rows' cols' b r c with h | h
  · rw [h, hp]
  · rw [h]

/-! ### The session invariant for the win-condition claim (C2) -/

/-- Invariant of a session after mine placement: the board is rectangular,
the mine count matches the configuration, before game over `openCount`
counts exactly the open cells, all of them safe, and stays below the number
of safe cells; a won game has every safe cell open; a lost game has every
mine exposed. -/
def Inv (s : GS) : Prop :=
  Rect s.rows s.cols s.board
  ∧ s.minesPlaced = true
  ∧ 0 < s.mines
  ∧ countGrid s.rows s.cols (fun cell => cell.isMine) s.board = s.mines
  ∧ (s.didWin = true → s.isGameOver = true)
  ∧ (s.isGameOver = false →
      s.openCount = countGrid s.rows s.cols (fun cell => cell.isOpen) s.board
      ∧ s.openCount < s.rows * s.cols - s.mines
      ∧ ∀ r, r < s.rows → ∀ c, c < s.cols → (getc s.board r c).isOpen = true →
          (getc s.board r c).isMine = false)
  ∧ (s.didWin = true → ∀ r, r < s.rows → ∀ c, c < s.cols →
      (getc s.board r c).isMine = false → (getc s.board r c).isOpen = true)
  ∧ (s.isGameOver = true → s.didWin = false → ∀ r, r < s.rows → ∀ c, c < s.cols →
      (getc s.board r c).isMine = true → (getc s.board r c).isOpen = true)

instance (s : GS) : Decidable (Inv s) := by
  unfold Inv
  exact @instDecidableAnd _ _ inferInstance
    (@instDecidableAnd _ _ inferInstance
      (@instDecidableAnd _ _ inferInstance
        (@instDecidableAnd _ _ inferInstance
          (@instDecidableAnd _ _ inferInstance
            (@instDecidableAnd _ _ inferInstance
              (@instDecidableAnd _ _ inferInstance inferInstance))))))

/-- The engine operations a player can perform mid-game. -/
inductive Op where
  | click (r c : Nat)
  | flag (r c : Nat)
deriving DecidableEq, Repr

/-- Coordinates of the operation lie on the configured grid. -/
def Op.inBounds (op : Op) (rows cols : Nat) : Prop :=
  match op with
  | .click r c => r < rows ∧ c < cols
  | .flag r c => r < rows ∧ c < cols

instance (op : Op) (rows cols : Nat) : Decidable (op.inBounds rows cols) := by
  cases op <;> (unfold Op.inBounds; infer_instance)

def applyOp (rand : Nat → Nat) (op : Op) (s : GS) : GS :=
  match op with
  | .click r c => handleCellClick rand r c s
  | .flag r c => toggleFlag r c s

def applyOps (rand : Nat → Nat) (ops : List Op) (s : GS) : GS :=
  ops.foldl (fun s op => applyOp rand op s) s

theorem applyOp_dims (rand : Nat → Nat) (op : Op) (s : GS) :
    (applyOp rand op s).rows = s.rows ∧ (applyOp rand op s).cols = s.cols := by
  cases op with
  | click r c =>
    exact ⟨(handleCellClick_const rand r c s).1, (handleCellClick_const rand r c s).2.1⟩
  | flag r c =>
    exact ⟨(toggleFlag_const r c s).1, (toggleFlag_const r c s).2.1⟩

end Minesweeper

namespace Minesweeper

/-! ### Closed forms of the reveal operations -/

theorem revealCellXform_mine_open {cell : Cell} (h : cell.isMine = true) :
    (revealCellXform cell).isOpen = true := by
  unfold revealCellXform
  rw [if_pos h]

theorem openCell_closed_mine {r c : Nat} {s : GS}
    (hcl : ¬((getc s.board r c).isOpen = true ∨ (getc s.board r c).isFlagged = true))
    (hmine : (getc s.board r c).isMine = true) :
    openCell r c s = (endGame false { s with
      board := modc s.board r c (fun cell => { cell with isOpen := true }),
      openCount := s.openCount + 1 }, false) := by
  simp only [openCell]
  rw [if_neg hcl, if_pos hmine]

theorem openCell_closed_flood {r c : Nat} {s : GS}
    (hcl : ¬((getc s.board r c).isOpen = true ∨ (getc s.board r c).isFlagged = true))
    (hmine : (getc s.board r c).isMine = false)
    (hadj : (getc s.board r c).adjacent = 0) :
    openCell r c s = ({ s with
      board := (floodOpen s.rows s.cols
        (modc s.board r c (fun cell => { cell with isOpen := true }))
        (s.openCount + 1) r c).1,
      openCount := (floodOpen s.rows s.cols
        (modc s.board r c (fun cell => { cell with isOpen := true }))
        (s.openCount + 1) r c).2 }, true) := by
  simp only [openCell]
  rw [if_neg hcl, if_neg (by rw [hmine]; exact Bool.false_ne_true), if_pos hadj]

theorem openCell_closed_plain {r c : Nat} {s : GS}
    (hcl : ¬((getc s.board r c).isOpen = true ∨ (getc s.board r c).isFlagged = true))
    (hmine : (getc s.board r c).isMine = false)
    (hadj : (getc s.board r c).adjacent ≠ 0) :
    openCell r c s = ({ s with
      board := modc s.board r c (fun cell => { cell with isOpen := true }),
      openCount := s.openCount + 1 }, true) := by
  simp only [openCell]
  rw [if_neg hcl, if_neg (by rw [hmine]; exact Bool.false_ne_true), if_neg hadj]

theorem handleCellClick_closed {rand : Nat → Nat} {r c : Nat} {s : GS}
    (hgo : s.isGameOver = false) (hmp : s.minesPlaced = true)
    (hcl : ¬((getc s.board r c).isOpen = true ∨ (getc s.board r c).isFlagged = true)) :
    handleCellClick rand r c s
      = if (openCell r c s).1.isGameOver = true then (openCell r c s).1
        else (checkWin (openCell r c s).1).1 := by
  simp only [handleCellClick]
  rw [if_neg (by rw [hgo]; exact Bool.false_ne_true), if_neg hcl, if_pos hmp]

theorem bool_not_mine_iff (cell : Cell) : (!cell.isMine) = true ↔ cell.isMine = false := by
  cases h : cell.isMine <;> simp

end Minesweeper

namespace Minesweeper

/-! ### Preservation of the session invariant -/

theorem inv_update_board {s : GS} (hs : Inv s) (B : Board) (F : Int)
    (hrect : Rect s.rows s.cols B)
    (hopen : ∀ r c, (getc B r c).isOpen = (getc s.board r c).isOpen)
    (hmine : ∀ r c, (getc B r c).isMine = (getc s.board r c).isMine) :
    Inv { s with board := B, flags := F } := by
  obtain ⟨_, hmp, hm0, hmc, hdw, hplay, hwin, hlost⟩ := hs
  have hcg_mine : countGrid s.rows s.cols (fun cell => cell.isMine) B
      = countGrid s.rows s.cols (fun cell => cell.isMine) s.board :=
    countGrid_congr (fun r _ c _ => by
      show (getc B r c).isMine = (getc s.board r c).isMine
      exact hmine r c)
  have hcg_open : countGrid s.rows s.cols (fun cell => cell.isOpen) B
      = countGrid s.rows s.cols (fun cell => cell.isOpen) s.board :=
    countGrid_congr (fun r _ c _ => by
      show (getc B r c).isOpen = (getc s.board r c).isOpen
      exact hopen r c)
  unfold Inv
  refine ⟨hrect, hmp, hm0, ?_, hdw, ?_, ?_, ?_⟩
  · show countGrid s.rows s.cols (fun cell => cell.isMine) B = s.mines
    rw [hcg_mine]
    exact hmc
  · intro hgo
    obtain ⟨ho1, ho2, ho3⟩ := hplay hgo
    refine ⟨?_, ho2, ?_⟩
    · show s.openCount = countGrid s.rows s.cols (fun cell => cell.isOpen) B
      rw [hcg_open]
      exact ho1
    · intro r hr c hc h
      show (getc B r c).isMine = false
      rw [hmine r c]
      rw [hopen r c] at h
      exact ho3 r hr c hc h
  · intro hdwin r hr c hc h
    show (getc B r c).isOpen = true
    rw [hopen r c]
    rw [hmine r c] at h
    exact hwin hdwin r hr c hc h
  · intro hg hd r hr c hc h
    show (getc B r c).isOpen = true
    rw [hopen r c]
    rw [hmine r c] at h
    exact hlost hg hd r hr c hc h

theorem toggleFlag_inv {s : GS} (hs : Inv s) (r c : Nat) : Inv (toggleFlag r c s) := by
  by_cases hgo : s.isGameOver = true
  · unfold toggleFlag
    rw [if_pos hgo]
    exact hs
  · by_cases hopen : (getc s.board r c).isOpen = true
    · unfold toggleFlag
      rw [if_neg hgo, if_pos hopen]
      exact hs
    · have heq : toggleFlag r c s = { s with
          board := modc s.board r c (fun cell => { cell with isFlagged := !cell.isFlagged }),
          flags := s.flags + (if !(getc s.board r c).isFlagged then 1 else -1) } := by
        unfold toggleFlag
        rw [if_neg hgo, if_neg hopen]
      rw [heq]
      apply inv_update_board hs _ _ (rect_modc hs.1 _ _ _)
      · intro r' c'
        rcases getc_modc_cases s.board r c
          (fun cell => { cell with isFlagged := !cell.isFlagged }) r' c' with
          h | ⟨he1, he2, h⟩
        · rw [h]
        · subst he1
          subst he2
          rw [h]
      · intro r' c'
        rcases getc_modc_cases s.board r c
          (fun cell => { cell with isFlagged := !cell.isFlagged }) r' c' with
          h | ⟨he1, he2, h⟩
        · rw [h]
        · subst he1
          subst he2
          rw [h]

/-- Invariant of the lost state built by `endGame false`. -/
theorem inv_lost (s : GS) (B : Board) (oc : Nat)
    (hmp : s.minesPlaced = true) (hm0 : 0 < s.mines)
    (hrectB : Rect s.rows s.cols B)
    (hmcB : countGrid s.rows s.cols (fun cell => cell.isMine) B = s.mines) :
    Inv { s with
      board := revealMinesB s.rows s.cols B, openCount := oc,
      isGameOver := true, didWin := false, timerRunning := false } := by
  unfold Inv
  refine ⟨rect_revealMinesB hrectB, hmp, hm0, ?_, fun _ => rfl,
    fun h => Bool.noConfusion h, fun h => Bool.noConfusion h, ?_⟩
  · show countGrid s.rows s.cols (fun cell => cell.isMine) (revealMinesB s.rows s.cols B)
      = s.mines
    rw [countGrid_revealMinesB s.rows s.cols s.rows s.cols _ B
      (fun cell => (revealCellXform_fields cell).1)]
    exact hmcB
  · intro _ _ r hr c hc hmine
    show (getc (revealMinesB s.rows s.cols B) r c).isOpen = true
    rw [getc_revealMinesB hrectB hr hc] at hmine ⊢
    rw [(revealCellXform_fields (getc B r c)).1] at hmine
    exact revealCellXform_mine_open hmine

/-- Invariant after `openCell` on a safe cell, through the subsequent
`checkWin`. -/
theorem inv_after_open_nonmine (s : GS) (B₂ : Board) (oc₂ : Nat)
    (hmp : s.minesPlaced = true) (hm0 : 0 < s.mines) (hgo : s.isGameOver = false)
    (hdw : s.didWin = true → s.isGameOver = true)
    (hrectB : Rect s.rows s.cols B₂)
    (hmcB : countGrid s.rows s.cols (fun cell => cell.isMine) B₂ = s.mines)
    (hocB : oc₂ = countGrid s.rows s.cols (fun cell => cell.isOpen) B₂)
    (hsafeB : ∀ r', r' < s.rows → ∀ c', c' < s.cols →
        (getc B₂ r' c').isOpen = true → (getc B₂ r' c').isMine = false) :
    Inv (checkWin { s with board := B₂, openCount := oc₂ }).1 := by
  have hcompl : countGrid s.rows s.cols (fun cell => !cell.isMine) B₂
      = s.rows * s.cols - s.mines := by
    have h := countGrid_compl s.rows s.cols (fun cell => cell.isMine) B₂
    omega
  unfold checkWin
  split
  · rename_i hwon
    have hwon' : s.rows * s.cols - s.mines ≤ oc₂ := hwon
    show Inv (endGame true { s with board := B₂, openCount := oc₂ })
    rw [endGame_spec]
    rw [if_pos rfl]
    show Inv { s with
      board := B₂, openCount := oc₂, isGameOver := true, didWin := true,
      timerRunning := false }
    have hall : ∀ r, r < s.rows → ∀ c, c < s.cols →
        (getc B₂ r c).isMine = false → (getc B₂ r c).isOpen = true := by
      have hsub : ∀ r, r < s.rows → ∀ c, c < s.cols →
          (fun cell => cell.isOpen) (getc B₂ r c) = true →
          (fun cell => !cell.isMine) (getc B₂ r c) = true := by
        intro r hr c hc h
        show (!(getc B₂ r c).isMine) = true
        rw [bool_not_mine_iff]
        exact hsafeB r hr c hc h
      have hcard : countGrid s.rows s.cols (fun cell => !cell.isMine) B₂
          ≤ countGrid s.rows s.cols (fun cell => cell.isOpen) B₂ := by
        omega
      have hforce := countGrid_forcing hsub hcard
      intro r hr c hc hm
      have := hforce r hr c hc
        (by show (!(getc B₂ r c).isMine) = true; rw [bool_not_mine_iff]; exact hm)
      exact this
    unfold Inv
    exact ⟨hrectB, hmp, hm0, hmcB, fun _ => rfl, fun h => Bool.noConfusion h,
      fun _ => hall, fun _ h => Bool.noConfusion h⟩
  · rename_i hnot
    have hnot' : ¬(s.rows * s.cols - s.mines ≤ oc₂) := hnot
    show Inv { s with board := B₂, openCount := oc₂ }
    unfold Inv
    refine ⟨hrectB, hmp, hm0, hmcB, ?_, ?_, ?_, ?_⟩
    · intro h
      exact hdw h
    · intro _
      exact ⟨hocB, by omega, hsafeB⟩
    · intro h
      exact absurd (hdw h) (by rw [hgo]; exact Bool.false_ne_true)
    · intro h
      exact absurd h (by rw [hgo]; exact Bool.false_ne_true)
end Minesweeper

namespace Minesweeper

theorem inv_if_over (s₂ : GS) (h : s₂.isGameOver = true) (hInv : Inv s₂) :
    Inv (if s₂.isGameOver = true then s₂ else (checkWin s₂).1) := by
  rw [if_pos h]
  exact hInv

theorem inv_if_play (s₂ : GS) (h : s₂.isGameOver = false) (hInv : Inv (checkWin s₂).1) :
    Inv (if s₂.isGameOver = true then s₂ else (checkWin s₂).1) := by
  have hne : ¬(s₂.isGameOver = true) := by
    rw [h]
    exact Bool.false_ne_true
  rw [if_neg hne]
  exact hInv

/-- Clicking a closed, unflagged in-bounds cell of an invariant mid-game state
preserves the invariant through `openCell` and the subsequent `checkWin`. -/
theorem inv_after_openCell {s : GS} (hs : Inv s) {r c : Nat}
    (hr : r < s.rows) (hc : c < s.cols) (hgo : s.isGameOver = false)
    (hcl : ¬((getc s.board r c).isOpen = true ∨ (getc s.board r c).isFlagged = true)) :
    Inv (if (openCell r c s).1.isGameOver = true then (openCell r c s).1
        else (checkWin (openCell r c s).1).1) := by
  obtain ⟨hrect, hmp, hm0, hmc, hdw, hplay, hwin, hlost⟩ := hs
  obtain ⟨hoc, holt, hsafe⟩ := hplay hgo
  have hclo : (getc s.board r c).isOpen = false := by
    cases h : (getc s.board r c).isOpen
    · rfl
    · exact absurd (Or.inl h) hcl
  have hinb : inb s.board r c := inb_of_rect hrect hr hc
  have hrect₁ : Rect s.rows s.cols
      (modc s.board r c (fun cell => { cell with isOpen := true })) :=
    rect_modc hrect r c _
  have hopen₁ : countGrid s.rows s.cols (fun cell => cell.isOpen)
        (modc s.board r c (fun cell => { cell with isOpen := true }))
      = countGrid s.rows s.cols (fun cell => cell.isOpen) s.board + 1 := by
    have hcnt := @countGrid_modc s.rows s.cols (fun cell => cell.isOpen) s.board r c
      hr hc hinb (fun cell => { cell with isOpen := true })
    simp [hclo] at hcnt
    omega
  have hmine₁ : ∀ r' c',
      (getc (modc s.board r c (fun cell => { cell with isOpen := true })) r' c').isMine
        = (getc s.board r' c').isMine := by
    intro r' c'
    rcases getc_modc_cases s.board r c (fun cell => { cell with isOpen := true }) r' c' with
      h | ⟨he1, he2, h⟩
    · rw [h]
    · subst he1
      subst he2
      rw [h]
  have hmc₁ : countGrid s.rows s.cols (fun cell => cell.isMine)
      (modc s.board r c (fun cell => { cell with isOpen := true })) = s.mines := by
    have h : countGrid s.rows s.cols (fun cell => cell.isMine)
          (modc s.board r c (fun cell => { cell with isOpen := true }))
        = countGrid s.rows s.cols (fun cell => cell.isMine) s.board :=
      countGrid_congr (fun r' _ c' _ => by
        show (getc (modc s.board r c (fun cell => { cell with isOpen := true })) r' c').isMine
          = (getc s.board r' c').isMine
        exact hmine₁ r' c')
    rw [h]
    exact hmc
  by_cases hmine : (getc s.board r c).isMine = true
  · have hfst : (openCell r c s).1 = endGame false { s with
        board := modc s.board r c (fun cell => { cell with isOpen := true }),
        openCount := s.openCount + 1 } := by
      rw [openCell_closed_mine hcl hmine]
    rw [hfst]
    refine inv_if_over _ ?_ ?_
    · rw [endGame_spec]
    · rw [endGame_spec, if_neg Bool.false_ne_true]
      exact inv_lost s (modc s.board r c (fun cell => { cell with isOpen := true }))
        (s.openCount + 1) hmp hm0 hrect₁ hmc₁
  · have hmine' : (getc s.board r c).isMine = false := by
      cases h : (getc s.board r c).isMine
      · rfl
      · exact absurd h hmine
    have hsafe₁ : ∀ r', r' < s.rows → ∀ c', c' < s.cols →
        (getc (modc s.board r c (fun cell => { cell with isOpen := true })) r' c').isOpen
          = true →
        (getc (modc s.board r c (fun cell => { cell with isOpen := true })) r' c').isMine
          = false := by
      intro r' hr' c' hc' hop
      rcases getc_modc_cases s.board r c (fun cell => { cell with isOpen := true }) r' c' with
        h | ⟨he1, he2, h⟩
      · rw [h] at hop ⊢
        exact hsafe r' hr' c' hc' hop
      · subst he1
        subst he2
        rw [h]
        exact hmine'
    by_cases hadj : (getc s.board r c).adjacent = 0
    · have hfst : (openCell r c s).1 = { s with
          board := (floodOpen s.rows s.cols
            (modc s.board r c (fun cell => { cell with isOpen := true }))
            (s.openCount + 1) r c).1,
          openCount := (floodOpen s.rows s.cols
            (modc s.board r c (fun cell => { cell with isOpen := true }))
            (s.openCount + 1) r c).2 } := by
        rw [openCell_closed_flood hcl hmine' hadj]
      obtain ⟨⟨f1, f2, f3, f4⟩, hrectF⟩ := floodOpen_frame
        (modc s.board r c (fun cell => { cell with isOpen := true }))
        (s.openCount + 1) r c hrect₁
      have hmcF : countGrid s.rows s.cols (fun cell => cell.isMine)
          (floodOpen s.rows s.cols
            (modc s.board r c (fun cell => { cell with isOpen := true }))
            (s.openCount + 1) r c).1 = s.mines := by
        have h : countGrid s.rows s.cols (fun cell => cell.isMine)
            (floodOpen s.rows s.cols
              (modc s.board r c (fun cell => { cell with isOpen := true }))
              (s.openCount + 1) r c).1
            = countGrid s.rows s.cols (fun cell => cell.isMine)
              (modc s.board r c (fun cell => { cell with isOpen := true })) :=
          countGrid_congr (fun r' _ c' _ => by
            show (getc (floodOpen s.rows s.cols
                (modc s.board r c (fun cell => { cell with isOpen := true }))
                (s.openCount + 1) r c).1 r' c').isMine
              = (getc (modc s.board r c (fun cell => { cell with isOpen := true })) r' c').isMine
            exact (f1 r' c').2.1)
        rw [h]
        exact hmc₁
      have hocF : (floodOpen s.rows s.cols
            (modc s.board r c (fun cell => { cell with isOpen := true }))
            (s.openCount + 1) r c).2
          = countGrid s.rows s.cols (fun cell => cell.isOpen)
            (floodOpen s.rows s.cols
              (modc s.board r c (fun cell => { cell with isOpen := true }))
              (s.openCount + 1) r c).1 := by
        omega
      have hsafeF : ∀ r', r' < s.rows → ∀ c', c' < s.cols →
          (getc (floodOpen s.rows s.cols
            (modc s.board r c (fun cell => { cell with isOpen := true }))
            (s.openCount + 1) r c).1 r' c').isOpen = true →
          (getc (floodOpen s.rows s.cols
            (modc s.board r c (fun cell => { cell with isOpen := true }))
            (s.openCount + 1) r c).1 r' c').isMine = false := by
        intro r' hr' c' hc' hop
        rw [(f1 r' c').2.1]
        by_cases hm2 : (getc (modc s.board r c (fun cell => { cell with isOpen := true }))
            r' c').isMine = true
        · have heq := f2 r' c' (Or.inr hm2)
          rw [heq] at hop
          exact hsafe₁ r' hr' c' hc' hop
        · cases h2 : (getc (modc s.board r c (fun cell => { cell with isOpen := true }))
            r' c').isMine
          · rfl
          · exact absurd h2 hm2
      rw [hfst]
      exact inv_if_play _ hgo
        (inv_after_open_nonmine s _ _ hmp hm0 hgo hdw hrectF hmcF hocF hsafeF)
    · have hfst : (openCell r c s).1 = { s with
          board := modc s.board r c (fun cell => { cell with isOpen := true }),
          openCount := s.openCount + 1 } := by
        rw [openCell_closed_plain hcl hmine' hadj]
      have hocP : s.openCount + 1 = countGrid s.rows s.cols (fun cell => cell.isOpen)
          (modc s.board r c (fun cell => { cell with isOpen := true })) := by
        omega
      rw [hfst]
      exact inv_if_play _ hgo
        (inv_after_open_nonmine s _ _ hmp hm0 hgo hdw hrect₁ hmc₁ hocP hsafe₁)

end Minesweeper

namespace Minesweeper

theorem handleCellClick_inv {s : GS} (hs : Inv s) (rand : Nat → Nat) (r c : Nat)
    (hr : r < s.rows) (hc : c < s.cols) : Inv (handleCellClick rand r c s) := by
  by_cases hgo : s.isGameOver = true
  · simp only [handleCellClick]
    rw [if_pos hgo]
    exact hs
  · have hgo' : s.isGameOver = false := by
      cases h : s.isGameOver
      · rfl
      · exact absurd h hgo
    by_cases hcl : (getc s.board r c).isOpen = true ∨ (getc s.board r c).isFlagged = true
    · simp only [handleCellClick]
      rw [if_neg hgo, if_pos hcl]
      exact hs
    · rw [handleCellClick_closed hgo' hs.2.1 hcl]
      exact inv_after_openCell hs hr hc hgo' hcl

theorem applyOp_inv {s : GS} (hs : Inv s) (rand : Nat → Nat) (op : Op)
    (hb : op.inBounds s.rows s.cols) : Inv (applyOp rand op s) := by
  cases op with
  | click r c => exact handleCellClick_inv hs rand r c hb.1 hb.2
  | flag r c => exact toggleFlag_inv hs r c

theorem applyOps_inv (rand : Nat → Nat) (ops : List Op) :
    ∀ s : GS, Inv s → (∀ op ∈ ops, op.inBounds s.rows s.cols) →
      Inv (applyOps rand ops s)
      ∧ (applyOps rand ops s).rows = s.rows ∧ (applyOps rand ops s).cols = s.cols := by
  induction ops with
  | nil =>
    intro s hs _
    exact ⟨hs, rfl, rfl⟩
  | cons op rest ih =>
    intro s hs hb
    have h1 : Inv (applyOp rand op s) :=
      applyOp_inv hs rand op (hb op (List.mem_cons_self op rest))
    have hd := applyOp_dims rand op s
    have hrest := ih (applyOp rand op s) h1 (fun op' hop' => by
      rw [hd.1, hd.2]
      exact hb op' (List.mem_cons_of_mem op hop'))
    have hstep : applyOps rand (op :: rest) s = applyOps rand rest (applyOp rand op s) := rfl
    rw [hstep]
    refine ⟨hrest.1, ?_, ?_⟩
    · rw [hrest.2.1, hd.1]
    · rw [hrest.2.2, hd.2]

theorem applyOps_gameOver {s : GS} (h : s.isGameOver = true) (rand : Nat → Nat)
    (ops : List Op) : applyOps rand ops s = s := by
  induction ops with
  | nil => rfl
  | cons op rest ih =>
    have hop : applyOp rand op s = s := by
      cases op with
      | click r c =>
        show handleCellClick rand r c s = s
        simp only [handleCellClick]
        rw [if_pos h]
      | flag r c =>
        show toggleFlag r c s = s
        simp only [toggleFlag]
        rw [if_pos h]
    have hstep : applyOps rand (op :: rest) s = applyOps rand rest (applyOp rand op s) := rfl
    rw [hstep, hop]
    exact ih

end Minesweeper

namespace Minesweeper

theorem endGame_isGameOver (w : Bool) (s : GS) : (endGame w s).isGameOver = true := by
  rw [endGame_spec]

theorem endGame_didWin (w : Bool) (s : GS) : (endGame w s).didWin = w := by
  rw [endGame_spec]

end Minesweeper

namespace Minesweeper

/-- **C2.** `checkWin` reports a win and moves the session to the WON state
exactly when `openCount ≥ rows*cols - mines`; along any in-bounds play
sequence from an invariant mid-game state the session invariant is
preserved, a won state has every safe cell open, a running state never has
all safe cells open (so the win cannot fire early), and a terminal state
absorbs every further operation (so the win fires at most once). -/
theorem checkWin_winCondition {rand : Nat → Nat} {s : GS} {ops : List Op}
    (hs : Inv s) (hb : ∀ op ∈ ops, op.inBounds s.rows s.cols) :
    (∀ t : GS,
      ((checkWin t).2 = true ↔ t.rows * t.cols - t.mines ≤ t.openCount)
      ∧ (t.rows * t.cols - t.mines ≤ t.openCount →
          (checkWin t).1.isGameOver = true ∧ (checkWin t).1.didWin = true)
      ∧ (¬(t.rows * t.cols - t.mines ≤ t.openCount) → (checkWin t).1 = t))
    ∧ Inv (applyOps rand ops s)
    ∧ ((applyOps rand ops s).didWin = true →
        ∀ r, r < s.rows → ∀ c, c < s.cols →
          (getc (applyOps rand ops s).board r c).isMine = false →
          (getc (applyOps rand ops s).board r c).isOpen = true)
    ∧ ((applyOps rand ops s).isGameOver = false →
        ¬(∀ r, r < s.rows → ∀ c, c < s.cols →
          (getc (applyOps rand ops s).board r c).isMine = false →
          (getc (applyOps rand ops s).board r c).isOpen = true))
    ∧ ((applyOps rand ops s).isGameOver = true →
        ∀ ops₂ : List Op, applyOps rand ops₂ (applyOps rand ops s) = applyOps rand ops s) := by
  obtain ⟨hInv, hrows, hcols⟩ := applyOps_inv rand ops s hs hb
  refine ⟨?_, hInv, ?_, ?_, ?_⟩
  · intro t
    unfold checkWin
    by_cases h : t.rows * t.cols - t.mines ≤ t.openCount
    · rw [if_pos h]
      exact ⟨⟨fun _ => h, fun _ => rfl⟩,
        fun _ => ⟨endGame_isGameOver true t, endGame_didWin true t⟩,
        fun hcon => absurd h hcon⟩
    · rw [if_neg h]
      exact ⟨⟨fun hcon => Bool.noConfusion hcon, fun hcon => absurd hcon h⟩,
        fun hcon => absurd hcon h, fun _ => rfl⟩
  · intro hdw r hr c hc hm
    exact hInv.2.2.2.2.2.2.1 hdw r (by rw [hrows]; exact hr) c (by rw [hcols]; exact hc) hm
  · intro hngo hall
    obtain ⟨hoc, hlt, _⟩ := hInv.2.2.2.2.2.1 hngo
    have hmcT := hInv.2.2.2.1
    have hcompl := countGrid_compl (applyOps rand ops s).rows (applyOps rand ops s).cols
      (fun cell => cell.isMine) (applyOps rand ops s).board
    have hmono : countGrid (applyOps rand ops s).rows (applyOps rand ops s).cols
          (fun cell => !cell.isMine) (applyOps rand ops s).board
        ≤ countGrid (applyOps rand ops s).rows (applyOps rand ops s).cols
          (fun cell => cell.isOpen) (applyOps rand ops s).board := by
      apply countGrid_mono
      intro r hrr c hcc hp
      show (getc (applyOps rand ops s).board r c).isOpen = true
      exact hall r (by rw [← hrows]; exact hrr) c (by rw [← hcols]; exact hcc)
        ((bool_not_mine_iff _).mp hp)
    omega
  · intro hgo ops₂
    exact applyOps_gameOver hgo rand ops₂

end Minesweeper

namespace Minesweeper

/-- A concrete 1×2 mid-game session (one mine, one safe cell, nothing open
yet) used to instantiate the C2 theorem. -/
def cw2State : GS :=
  { rows := 1, cols := 2, mines := 1,
    board := [[{ emptyCell with adjacent := 1 },
               { emptyCell with isMine := true, adjacent := 0 }]],
    flags := 0, openCount := 0, minesPlaced := true, isGameOver := false,
    didWin := false, timerRunning := true, elapsed := 0, hintsUsed := 0 }

/-- Concrete instantiation of the C2 theorem: the 1×2 session above with the
single play sequence that clicks the safe cell. -/
theorem checkWin_winCondition_witness :
    (Inv cw2State ∧ ∀ op ∈ [Op.click 0 0], op.inBounds cw2State.rows cw2State.cols)
    ∧ ((∀ t : GS,
        ((checkWin t).2 = true ↔ t.rows * t.cols - t.mines ≤ t.openCount)
        ∧ (t.rows * t.cols - t.mines ≤ t.openCount →
            (checkWin t).1.isGameOver = true ∧ (checkWin t).1.didWin = true)
        ∧ (¬(t.rows * t.cols - t.mines ≤ t.openCount) → (checkWin t).1 = t))
      ∧ Inv (applyOps (fun _ => 0) [Op.click 0 0] cw2State)
      ∧ ((applyOps (fun _ => 0) [Op.click 0 0] cw2State).didWin = true →
          ∀ r, r < cw2State.rows → ∀ c, c < cw2State.cols →
            (getc (applyOps (fun _ => 0) [Op.click 0 0] cw2State).board r c).isMine = false →
            (getc (applyOps (fun _ => 0) [Op.click 0 0] cw2State).board r c).isOpen = true)
      ∧ ((applyOps (fun _ => 0) [Op.click 0 0] cw2State).isGameOver = false →
          ¬(∀ r, r < cw2State.rows → ∀ c, c < cw2State.cols →
            (getc (applyOps (fun _ => 0) [Op.click 0 0] cw2State).board r c).isMine = false →
            (getc (applyOps (fun _ => 0) [Op.click 0 0] cw2State).board r c).isOpen = true))
      ∧ ((applyOps (fun _ => 0) [Op.click 0 0] cw2State).isGameOver = true →
          ∀ ops₂ : List Op,
            applyOps (fun _ => 0) ops₂ (applyOps (fun _ => 0) [Op.click 0 0] cw2State)
              = applyOps (fun _ => 0) [Op.click 0 0] cw2State)) :=
  ⟨⟨by decide, by decide⟩, checkWin_winCondition (by decide) (by decide)⟩

end Minesweeper

namespace Minesweeper

/-! ### The flags counter: pointwise flag preservation -/

theorem getc_modc_flag (b : Board) (r c : Nat) (f : Cell → Cell) (r' c' : Nat)
    (hf : ∀ cell, (f cell).isFlagged = cell.isFlagged) :
    (getc (modc b r c f) r' c').isFlagged = (getc b r' c').isFlagged := by
  rcases getc_modc_cases b r c f r' c' with h | ⟨he1, he2, h⟩
  · rw [h]
  · subst he1
    subst he2
    rw [h, hf]

theorem countGrid_eq_zero {rows cols : Nat} {p : Cell → Bool} {b : Board}
    (h : ∀ r, r < rows → ∀ c, c < cols → p (getc b r c) = false) :
    countGrid rows cols p b = 0 := by
  unfold countGrid
  rw [Finset.card_eq_zero, Finset.filter_eq_empty_iff]
  intro q hq
  rw [mem_gridF] at hq
  have := h q.1 hq.1 q.2 hq.2
  intro hcon
  rw [this] at hcon
  exact Bool.noConfusion hcon

theorem setMineAt_flag (cols : Nat) (b : Board) (idx : Nat) (r' c' : Nat) :
    (getc (setMineAt cols b idx) r' c').isFlagged = (getc b r' c').isFlagged := by
  unfold setMineAt
  exact getc_modc_flag b _ _ _ r' c' (fun cell => rfl)

theorem foldl_setMineAt_flag (cols : Nat) (idxs : List Nat) :
    ∀ (b : Board) (r' c' : Nat),
      (getc (idxs.foldl (setMineAt cols) b) r' c').isFlagged = (getc b r' c').isFlagged := by
  induction idxs with
  | nil => intro b r' c'; rfl
  | cons x xs ih =>
    intro b r' c'
    rw [List.foldl_cons, ih, setMineAt_flag]

theorem passStep_flag (rows cols : Nat) (b : Board) (p : Nat × Nat) (r' c' : Nat) :
    (getc (passStep rows cols b p) r' c').isFlagged = (getc b r' c').isFlagged := by
  unfold passStep
  split
  · rfl
  · exact getc_modc_flag b _ _ _ r' c' (fun cell => rfl)

theorem foldl_passStep_flag (rows cols : Nat) (coords : List (Nat × Nat)) :
    ∀ (b : Board) (r' c' : Nat),
      (getc (coords.foldl (passStep rows cols) b) r' c').isFlagged
        = (getc b r' c').isFlagged := by
  induction coords with
  | nil => intro b r' c'; rfl
  | cons p ps ih =>
    intro b r' c'
    rw [List.foldl_cons, ih, passStep_flag]

theorem placeMinesB_flag (rand : Nat → Nat) (rows cols mines er ec : Nat) (b : Board)
    (r' c' : Nat) :
    (getc (placeMinesB rand rows cols mines er ec b) r' c').isFlagged
      = (getc b r' c').isFlagged := by
  unfold placeMinesB adjacencyPass
  rw [foldl_passStep_flag, foldl_setMineAt_flag]

theorem rect_placeMinesB {rows cols : Nat} {b : Board} (hb : Rect rows cols b)
    (rand : Nat → Nat) (mines er ec : Nat) :
    Rect rows cols (placeMinesB rand rows cols mines er ec b) := by
  unfold placeMinesB adjacencyPass
  exact rect_foldl_passStep _ (rect_foldl_setMineAt _ hb)

theorem revealMinesB_flag (rows cols : Nat) (b : Board) (r' c' : Nat) :
    (getc (revealMinesB rows cols b) r' c').isFlagged = (getc b r' c').isFlagged := by
  rcases getc_revealMinesB_cases rows cols b r' c' with h | h
  · rw [h]
    exact (revealCellXform_fields _).2.1
  · rw [h]

theorem startTimer_same (s : GS) :
    (startTimer s).board = s.board ∧ (startTimer s).rows = s.rows
    ∧ (startTimer s).cols = s.cols ∧ (startTimer s).flags = s.flags
    ∧ (startTimer s).mines = s.mines := by
  unfold startTimer
  split
  · exact ⟨rfl, rfl, rfl, rfl, rfl⟩
  · exact ⟨rfl, rfl, rfl, rfl, rfl⟩

end Minesweeper

namespace Minesweeper

theorem openCell_board_flag (r c : Nat) {s : GS} (hrect : Rect s.rows s.cols s.board) :
    Rect s.rows s.cols (openCell r c s).1.board
    ∧ ∀ r' c', (getc (openCell r c s).1.board r' c').isFlagged
        = (getc s.board r' c').isFlagged := by
  have hrect₁ : Rect s.rows s.cols
      (modc s.board r c (fun cell => { cell with isOpen := true })) :=
    rect_modc hrect r c _
  have hflag₁ : ∀ r' c',
      (getc (modc s.board r c (fun cell => { cell with isOpen := true })) r' c').isFlagged
        = (getc s.board r' c').isFlagged :=
    fun r' c' => getc_modc_flag s.board r c _ r' c' (fun cell => rfl)
  by_cases hcl : (getc s.board r c).isOpen = true ∨ (getc s.board r c).isFlagged = true
  · have hnoop : openCell r c s = (s, false) := by
      simp only [openCell]
      rw [if_pos hcl]
    rw [hnoop]
    exact ⟨hrect, fun _ _ => rfl⟩
  · by_cases hmine : (getc s.board r c).isMine = true
    · rw [openCell_closed_mine hcl hmine, endGame_spec, if_neg Bool.false_ne_true]
      constructor
      · show Rect s.rows s.cols (revealMinesB s.rows s.cols
          (modc s.board r c (fun cell => { cell with isOpen := true })))
        exact rect_revealMinesB hrect₁
      · intro r' c'
        show (getc (revealMinesB s.rows s.cols
            (modc s.board r c (fun cell => { cell with isOpen := true }))) r' c').isFlagged
          = (getc s.board r' c').isFlagged
        rw [revealMinesB_flag]
        exact hflag₁ r' c'
    · have hmine' : (getc s.board r c).isMine = false := by
        cases h : (getc s.board r c).isMine
        · rfl
        · exact absurd h hmine
      by_cases hadj : (getc s.board r c).adjacent = 0
      · rw [openCell_closed_flood hcl hmine' hadj]
        obtain ⟨⟨f1, _, _, _⟩, hrectF⟩ := floodOpen_frame
          (modc s.board r c (fun cell => { cell with isOpen := true }))
          (s.openCount + 1) r c hrect₁
        constructor
        · exact hrectF
        · intro r' c'
          show (getc (floodOpen s.rows s.cols
              (modc s.board r c (fun cell => { cell with isOpen := true }))
              (s.openCount + 1) r c).1 r' c').isFlagged
            = (getc s.board r' c').isFlagged
          rw [(f1 r' c').1]
          exact hflag₁ r' c'
      · rw [openCell_closed_plain hcl hmine' hadj]
        exact ⟨hrect₁, hflag₁⟩

theorem handleCellClick_closed_first {rand : Nat → Nat} {r c : Nat} {s : GS}
    (hgo : s.isGameOver = false) (hmp : s.minesPlaced = false)
    (hcl : ¬((getc s.board r c).isOpen = true ∨ (getc s.board r c).isFlagged = true)) :
    handleCellClick rand r c s
      = if (openCell r c (startTimer (placeMines rand r c s))).1.isGameOver = true
        then (openCell r c (startTimer (placeMines rand r c s))).1
        else (checkWin (openCell r c (startTimer (placeMines rand r c s))).1).1 := by
  simp only [handleCellClick]
  rw [if_neg (by rw [hgo]; exact Bool.false_ne_true), if_neg hcl, hmp,
    if_neg Bool.false_ne_true]

theorem handleCellClick_board_flag (rand : Nat → Nat) (r c : Nat) {s : GS}
    (hrect : Rect s.rows s.cols s.board) :
    Rect s.rows s.cols (handleCellClick rand r c s).board
    ∧ ∀ r' c', (getc (handleCellClick rand r c s).board r' c').isFlagged
        = (getc s.board r' c').isFlagged := by
  by_cases hgo : s.isGameOver = true
  · have hnoop : handleCellClick rand r c s = s := by
      simp only [handleCellClick]
      rw [if_pos hgo]
    rw [hnoop]
    exact ⟨hrect, fun _ _ => rfl⟩
  · have hgo' : s.isGameOver = false := by
      cases h : s.isGameOver
      · rfl
      · exact absurd h hgo
    by_cases hcl : (getc s.board r c).isOpen = true ∨ (getc s.board r c).isFlagged = true
    · have hnoop : handleCellClick rand r c s = s := by
        simp only [handleCellClick]
        rw [if_neg hgo, if_pos hcl]
      rw [hnoop]
      exact ⟨hrect, fun _ _ => rfl⟩
    · by_cases hmp : s.minesPlaced = true
      · rw [handleCellClick_closed hgo' hmp hcl]
        obtain ⟨ho_rect, ho_flag⟩ := openCell_board_flag r c hrect
        by_cases hgo2 : (openCell r c s).1.isGameOver = true
        · rw [if_pos hgo2]
          exact ⟨ho_rect, ho_flag⟩
        · rw [if_neg hgo2, (checkWin_const (openCell r c s).1).2.2.2.2.2.2.2]
          exact ⟨ho_rect, ho_flag⟩
      · have hmp' : s.minesPlaced = false := by
          cases h : s.minesPlaced
          · rfl
          · exact absurd h hmp
        rw [handleCellClick_closed_first hgo' hmp' hcl]
        have hb₁ : (startTimer (placeMines rand r c s)).board
            = placeMinesB rand s.rows s.cols s.mines r c s.board := by
          unfold startTimer
          split
          · rfl
          · rfl
        have hr₁ : (startTimer (placeMines rand r c s)).rows = s.rows := by
          unfold startTimer
          split
          · rfl
          · rfl
        have hc₁ : (startTimer (placeMines rand r c s)).cols = s.cols := by
          unfold startTimer
          split
          · rfl
          · rfl
        have hrectU : Rect (startTimer (placeMines rand r c s)).rows
            (startTimer (placeMines rand r c s)).cols
            (startTimer (placeMines rand r c s)).board := by
          rw [hr₁, hc₁, hb₁]
          exact rect_placeMinesB hrect rand s.mines r c
        obtain ⟨ho_rect, ho_flag⟩ := openCell_board_flag r c hrectU
        rw [hr₁, hc₁] at ho_rect
        have ho_flag' : ∀ r' c',
            (getc (openCell r c (startTimer (placeMines rand r c s))).1.board r' c').isFlagged
              = (getc s.board r' c').isFlagged := by
          intro r' c'
          rw [ho_flag r' c', hb₁, placeMinesB_flag]
        by_cases hgo2 : (openCell r c (startTimer (placeMines rand r c s))).1.isGameOver = true
        · rw [if_pos hgo2]
          exact ⟨ho_rect, ho_flag'⟩
        · rw [if_neg hgo2,
            (checkWin_const (openCell r c (startTimer (placeMines rand r c s))).1).2.2.2.2.2.2.2]
          exact ⟨ho_rect, ho_flag'⟩

end Minesweeper

namespace Minesweeper

/-- Number of flagged cells on the session's board. -/
def flaggedCount (s : GS) : Nat :=
  countGrid s.rows s.cols (fun cell => cell.isFlagged) s.board

theorem rect_toggleFlag {s : GS} (hrect : Rect s.rows s.cols s.board) (r c : Nat) :
    Rect s.rows s.cols (toggleFlag r c s).board := by
  simp only [toggleFlag]
  split
  · exact hrect
  · split
    · exact hrect
    · show Rect s.rows s.cols (modc s.board r c
        (fun cell => { cell with isFlagged := !cell.isFlagged }))
      exact rect_modc hrect _ _ _

theorem toggleFlag_delta {s : GS} (hrect : Rect s.rows s.cols s.board)
    {r c : Nat} (hr : r < s.rows) (hc : c < s.cols) :
    (toggleFlag r c s).flags
        + (countGrid s.rows s.cols (fun cell => cell.isFlagged) s.board : Int)
      = s.flags + (countGrid s.rows s.cols (fun cell => cell.isFlagged)
          (toggleFlag r c s).board : Int) := by
  by_cases hgo : s.isGameOver = true
  · have hnoop : toggleFlag r c s = s := by
      unfold toggleFlag
      rw [if_pos hgo]
    rw [hnoop]
  · by_cases hopen : (getc s.board r c).isOpen = true
    · have hnoop : toggleFlag r c s = s := by
        unfold toggleFlag
        rw [if_neg hgo, if_pos hopen]
      rw [hnoop]
    · have heq : toggleFlag r c s = { s with
          board := modc s.board r c (fun cell => { cell with isFlagged := !cell.isFlagged }),
          flags := s.flags + (if !(getc s.board r c).isFlagged then 1 else -1) } := by
        unfold toggleFlag
        rw [if_neg hgo, if_neg hopen]
      rw [heq]
      have hcnt := @countGrid_modc s.rows s.cols (fun cell => cell.isFlagged) s.board r c
        hr hc (inb_of_rect hrect hr hc) (fun cell => { cell with isFlagged := !cell.isFlagged })
      show (s.flags + (if !(getc s.board r c).isFlagged then 1 else -1))
          + (countGrid s.rows s.cols (fun cell => cell.isFlagged) s.board : Int)
        = s.flags + (countGrid s.rows s.cols (fun cell => cell.isFlagged)
            (modc s.board r c (fun cell => { cell with isFlagged := !cell.isFlagged })) : Int)
      cases hflag : (getc s.board r c).isFlagged
      · simp [hflag] at hcnt ⊢
        omega
      · simp [hflag] at hcnt ⊢
        omega

theorem handleCellClick_flaggedCount (rand : Nat → Nat) (r c : Nat) {s : GS}
    (hrect : Rect s.rows s.cols s.board) :
    flaggedCount (handleCellClick rand r c s) = flaggedCount s := by
  unfold flaggedCount
  rw [(handleCellClick_const rand r c s).1, (handleCellClick_const rand r c s).2.1]
  exact countGrid_congr (fun r' _ c' _ => by
    show (getc (handleCellClick rand r c s).board r' c').isFlagged
      = (getc s.board r' c').isFlagged
    exact (handleCellClick_board_flag rand r c hrect).2 r' c')

theorem handleHint_flags_count (rand : Nat → Nat) {s : GS}
    (hrect : Rect s.rows s.cols s.board) :
    (handleHint rand s).flags = s.flags
    ∧ (handleHint rand s).rows = s.rows ∧ (handleHint rand s).cols = s.cols
    ∧ Rect s.rows s.cols (handleHint rand s).board
    ∧ ∀ r' c', (getc (handleHint rand s).board r' c').isFlagged
        = (getc s.board r' c').isFlagged := by
  unfold handleHint
  split
  · exact ⟨rfl, rfl, rfl, hrect, fun _ _ => rfl⟩
  · split
    · obtain ⟨hR, hF⟩ :=
        handleCellClick_board_flag rand (rand 0 % s.rows) (rand 1 % s.cols) hrect
      exact ⟨(handleCellClick_const rand _ _ s).2.2.2.1,
        (handleCellClick_const rand _ _ s).1, (handleCellClick_const rand _ _ s).2.1, hR, hF⟩
    · split
      · exact ⟨rfl, rfl, rfl, hrect, fun _ _ => rfl⟩
      · exact ⟨rfl, rfl, rfl, hrect, fun _ _ => rfl⟩

theorem handleHint_flaggedCount (rand : Nat → Nat) {s : GS}
    (hrect : Rect s.rows s.cols s.board) :
    flaggedCount (handleHint rand s) = flaggedCount s := by
  obtain ⟨_, hrows, hcols, _, hF⟩ := handleHint_flags_count rand hrect
  unfold flaggedCount
  rw [hrows, hcols]
  exact countGrid_congr (fun r' _ c' _ => by
    show (getc (handleHint rand s).board r' c').isFlagged = (getc s.board r' c').isFlagged
    exact hF r' c')

theorem flaggedCount_init (rows cols mines : Nat) :
    flaggedCount (createInitialState rows cols mines) = 0 := by
  unfold flaggedCount
  exact countGrid_eq_zero (fun r hr c hc => by
    show (getc (createEmptyBoard rows cols) r c).isFlagged = false
    rw [getc_createEmptyBoard]
    rfl)

/-- Session states reachable through the engine's public operations from a
fresh game (clicks and flags at in-bounds UI coordinates, hints anywhere). -/
inductive Reach : GS → Prop where
  | init (rows cols mines : Nat) : Reach (createInitialState rows cols mines)
  | click (s : GS) (rand : Nat → Nat) (r c : Nat) (hr : r < s.rows) (hc : c < s.cols)
      (h : Reach s) : Reach (handleCellClick rand r c s)
  | flag (s : GS) (r c : Nat) (hr : r < s.rows) (hc : c < s.cols)
      (h : Reach s) : Reach (toggleFlag r c s)
  | hint (s : GS) (rand : Nat → Nat) (h : Reach s) : Reach (handleHint rand s)

theorem reach_rect_flags {s : GS} (h : Reach s) :
    Rect s.rows s.cols s.board ∧ s.flags = (flaggedCount s : Int) := by
  induction h with
  | init rows cols mines =>
    refine ⟨rect_createEmptyBoard rows cols, ?_⟩
    show (0 : Int) = (flaggedCount (createInitialState rows cols mines) : Int)
    rw [flaggedCount_init]
    simp
  | click s rand r c hr hc hre ih =>
    obtain ⟨hrect, hflags⟩ := ih
    refine ⟨?_, ?_⟩
    · rw [(handleCellClick_const rand r c s).1, (handleCellClick_const rand r c s).2.1]
      exact (handleCellClick_board_flag rand r c hrect).1
    · rw [(handleCellClick_const rand r c s).2.2.2.1, handleCellClick_flaggedCount rand r c hrect]
      exact hflags
  | flag s r c hr hc hre ih =>
    obtain ⟨hrect, hflags⟩ := ih
    refine ⟨?_, ?_⟩
    · rw [(toggleFlag_const r c s).1, (toggleFlag_const r c s).2.1]
      exact rect_toggleFlag hrect r c
    · have hd := toggleFlag_delta hrect hr hc
      show (toggleFlag r c s).flags = (flaggedCount (toggleFlag r c s) : Int)
      unfold flaggedCount
      rw [(toggleFlag_const r c s).1, (toggleFlag_const r c s).2.1]
      unfold flaggedCount at hflags
      omega
  | hint s rand hre ih =>
    obtain ⟨hrect, hflags⟩ := ih
    obtain ⟨hfl, hrows, hcols, hR, _⟩ := handleHint_flags_count rand hrect
    refine ⟨?_, ?_⟩
    · rw [hrows, hcols]
      exact hR
    · rw [hfl, handleHint_flaggedCount rand hrect]
      exact hflags

end Minesweeper

namespace Minesweeper

/-- **C10.** In every reachable session state the `flags` counter equals the
number of flagged cells on the board: both are 0 on a fresh board, an
in-bounds `toggleFlag` changes the counter and the flagged-cell count
together by the same amount, and the other engine operations
(`handleCellClick`, `handleHint`) change neither quantity. -/
theorem flags_counter_invariant {s : GS} (h : Reach s) :
    s.flags = (flaggedCount s : Int)
    ∧ (∀ rows cols mines, (createInitialState rows cols mines).flags = 0
        ∧ flaggedCount (createInitialState rows cols mines) = 0)
    ∧ (∀ r c, r < s.rows → c < s.cols →
        (toggleFlag r c s).flags + (flaggedCount s : Int)
          = s.flags + (flaggedCount (toggleFlag r c s) : Int))
    ∧ (∀ rand r c, (handleCellClick rand r c s).flags = s.flags
        ∧ flaggedCount (handleCellClick rand r c s) = flaggedCount s)
    ∧ (∀ rand, (handleHint rand s).flags = s.flags
        ∧ flaggedCount (handleHint rand s) = flaggedCount s) := by
  obtain ⟨hrect, hflags⟩ := reach_rect_flags h
  refine ⟨hflags, fun rows cols mines => ⟨rfl, flaggedCount_init rows cols mines⟩, ?_, ?_, ?_⟩
  · intro r c hr hc
    have hd := toggleFlag_delta hrect hr hc
    unfold flaggedCount
    rw [(toggleFlag_const r c s).1, (toggleFlag_const r c s).2.1]
    exact hd
  · intro rand r c
    exact ⟨(handleCellClick_const rand r c s).2.2.2.1,
      handleCellClick_flaggedCount rand r c hrect⟩
  · intro rand
    exact ⟨(handleHint_flags_count rand hrect).1, handleHint_flaggedCount rand hrect⟩

/-- Concrete instantiation of the C10 theorem: a fresh 2×2 game with one
flag placed at (0,1). -/
theorem flags_counter_invariant_witness :
    Reach (toggleFlag 0 1 (createInitialState 2 2 1))
    ∧ ((toggleFlag 0 1 (createInitialState 2 2 1)).flags
          = (flaggedCount (toggleFlag 0 1 (createInitialState 2 2 1)) : Int)
      ∧ (∀ rows cols mines, (createInitialState rows cols mines).flags = 0
          ∧ flaggedCount (createInitialState rows cols mines) = 0)
      ∧ (∀ r c, r < (toggleFlag 0 1 (createInitialState 2 2 1)).rows →
          c < (toggleFlag 0 1 (createInitialState 2 2 1)).cols →
          (toggleFlag r c (toggleFlag 0 1 (createInitialState 2 2 1))).flags
              + (flaggedCount (toggleFlag 0 1 (createInitialState 2 2 1)) : Int)
            = (toggleFlag 0 1 (createInitialState 2 2 1)).flags
              + (flaggedCount (toggleFlag r c (toggleFlag 0 1 (createInitialState 2 2 1))) : Int))
      ∧ (∀ rand r c,
          (handleCellClick rand r c (toggleFlag 0 1 (createInitialState 2 2 1))).flags
              = (toggleFlag 0 1 (createInitialState 2 2 1)).flags
          ∧ flaggedCount (handleCellClick rand r c (toggleFlag 0 1 (createInitialState 2 2 1)))
              = flaggedCount (toggleFlag 0 1 (createInitialState 2 2 1)))
      ∧ (∀ rand, (handleHint rand (toggleFlag 0 1 (createInitialState 2 2 1))).flags
              = (toggleFlag 0 1 (createInitialState 2 2 1)).flags
          ∧ flaggedCount (handleHint rand (toggleFlag 0 1 (createInitialState 2 2 1)))
              = flaggedCount (toggleFlag 0 1 (createInitialState 2 2 1)))) :=
  ⟨Reach.flag (createInitialState 2 2 1) 0 1 (by decide) (by decide) (Reach.init 2 2 1),
   flags_counter_invariant
     (Reach.flag (createInitialState 2 2 1) 0 1 (by decide) (by decide) (Reach.init 2 2 1))⟩

end Minesweeper

namespace Minesweeper

/-! ### Leaderboard loading (lines 838-882)

`JSON.parse` output is modelled by `JVal`; a parsed JS object carries its
fields in insertion order with distinct keys.  JavaScript `Number(…)`
coercion is total on the values `JSON.parse` can produce: it is fixed on
null, booleans and numbers, and parametrised (`strToNum` for strings,
`objNum` for arrays and objects, `none` standing for NaN) so every theorem
below holds for any coercion behaviour. -/

inductive JVal where
  | jnull
  | jbool (b : Bool)
  | jnum (q : Rat)
  | jstr (s : String)
  | jarr (xs : List JVal)
  | jobj (fields : List (String × JVal))

def leaderboardLimit : Nat := 5

def maxNicknameLength : Nat := 12

def defaultNickname : String := "玩家"

/-- One leaderboard entry after sanitization. -/
structure LBEntry where
  name : String
  time : Int
deriving DecidableEq, Repr

/-- JS property read `obj.k` on a parsed object (keys are distinct). -/
def jlookup (fields : List (String × JVal)) (k : String) : Option JVal :=
  (fields.find? (fun p => p.1 == k)).map (fun p => p.2)

/-- `normalizeNickname(value)` (lines 172-177): non-strings and blank strings
fall back to the default, anything else is trimmed and cut to 12. -/
def normalizeNickname : Option JVal → String
  | some (.jstr s) =>
      let t := s.trim
      if t = "" then defaultNickname else t.take maxNicknameLength
  | _ => defaultNickname

/-- `Number(v)` for a parsed JSON value; `none` is NaN. -/
def jsNum (strToNum : String → Option Rat) (objNum : JVal → Option Rat) : JVal → Option Rat
  | .jnull => some 0
  | .jbool b => some (if b then 1 else 0)
  | .jnum q => some q
  | .jstr s => strToNum s
  | .jarr xs => objNum (.jarr xs)
  | .jobj fields => objNum (.jobj fields)

/-- `Math.floor(Number(candidate.time))` with the NaN of a missing property
(`Number(undefined)`) and of a failed coercion propagated as `none`. -/
def timeCoerce (strToNum : String → Option Rat) (objNum : JVal → Option Rat) :
    Option JVal → Option Int
  | none => none
  | some v => (jsNum strToNum objNum v).map Rat.floor

/-- The body of the `value.forEach` loop (lines 851-869), threading the
accumulated entries and the `migrated` flag. -/
def itemStep (strToNum : String → Option Rat) (objNum : JVal → Option Rat)
    (acc : List LBEntry × Bool) (item : JVal) : List LBEntry × Bool :=
  match item with
  | .jnum q =>
      let time := Rat.floor q
      if 0 ≤ time ∧ time ≤ 999 then (acc.1 ++ [⟨defaultNickname, time⟩], true) else acc
  | .jstr s =>
      match strToNum s with
      | none => acc
      | some q =>
          let time := Rat.floor q
          if 0 ≤ time ∧ time ≤ 999 then (acc.1 ++ [⟨defaultNickname, time⟩], true) else acc
  | .jnull => acc
  | .jbool _ => acc
  | .jarr _ => acc
  | .jobj fields =>
      match timeCoerce strToNum objNum (jlookup fields "time") with
      | none => acc
      | some time =>
          if 0 ≤ time ∧ time ≤ 999 then
            let name := normalizeNickname (jlookup fields "name")
            let changed : Bool :=
              match jlookup fields "name" with
              | some (.jstr s) => name != s
              | _ => true
            (acc.1 ++ [⟨name, time⟩], acc.2 || changed)
          else acc

/-- The body of the `Object.entries` loop (lines 848-873): non-arrays are
skipped, a key with surviving entries gets them sorted by time and cut to 5. -/
def keyStep (strToNum : String → Option Rat) (objNum : JVal → Option Rat)
    (acc : List (String × List LBEntry) × Bool) (kv : String × JVal) :
    List (String × List LBEntry) × Bool :=
  match kv.2 with
  | .jarr items =>
      let res := items.foldl (itemStep strToNum objNum) ([], acc.2)
      if res.1.length > 0 then
        (acc.1 ++ [(kv.1, (res.1.mergeSort (fun a b => decide (a.time ≤ b.time))).take
          leaderboardLimit)], res.2)
      else (acc.1, res.2)
  | _ => acc

/-- `loadLeaderboard()` (lines 838-882): `none` stands for a missing/empty raw
string and for every input on which `JSON.parse` throws (the `catch` branch);
a non-object (or array) parse result yields the empty store.  Returns the
sanitized store as an ordered key list together with the `migrated` flag. -/
def loadLeaderboard (strToNum : String → Option Rat) (objNum : JVal → Option Rat) :
    Option JVal → List (String × List LBEntry) × Bool
  | none => ([], false)
  | some (.jobj fields) => fields.foldl (keyStep strToNum objNum) ([], false)
  | some _ => ([], false)

/-- Reference form of the per-item sanitization: the entry an item
contributes, `none` when it is dropped. -/
def itemEntry (strToNum : String → Option Rat) (objNum : JVal → Option Rat)
    (item : JVal) : Option LBEntry :=
  match item with
  | .jnum q =>
      if 0 ≤ Rat.floor q ∧ Rat.floor q ≤ 999
      then some ⟨defaultNickname, Rat.floor q⟩ else none
  | .jstr s =>
      match strToNum s with
      | none => none
      | some q =>
          if 0 ≤ Rat.floor q ∧ Rat.floor q ≤ 999
          then some ⟨defaultNickname, Rat.floor q⟩ else none
  | .jobj fields =>
      match timeCoerce strToNum objNum (jlookup fields "time") with
      | none => none
      | some time =>
          if 0 ≤ time ∧ time ≤ 999
          then some ⟨normalizeNickname (jlookup fields "name"), time⟩ else none
  | _ => none

/-- Reference form of the per-key sanitization: `none` exactly when the key is
dropped (not an array, or every entry dropped). -/
def keyResult (strToNum : String → Option Rat) (objNum : JVal → Option Rat)
    (kv : String × JVal) : Option (String × List LBEntry) :=
  match kv.2 with
  | .jarr items =>
      let es := items.filterMap (itemEntry strToNum objNum)
      if es = [] then none
      else some (kv.1, (es.mergeSort (fun a b => decide (a.time ≤ b.time))).take
        leaderboardLimit)
  | _ => none

end Minesweeper

namespace Minesweeper

theorem itemStep_fst (strToNum : String → Option Rat) (objNum : JVal → Option Rat)
    (acc : List LBEntry × Bool) (item : JVal) :
    (itemStep strToNum objNum acc item).1 = acc.1 ++ (itemEntry strToNum objNum item).toList := by
  cases item with
  | jnull =>
    show acc.1 = acc.1 ++ []
    rw [List.append_nil]
  | jbool b =>
    show acc.1 = acc.1 ++ []
    rw [List.append_nil]
  | jarr xs =>
    show acc.1 = acc.1 ++ []
    rw [List.append_nil]
  | jnum q =>
    simp only [itemStep, itemEntry]
    by_cases h : 0 ≤ Rat.floor q ∧ Rat.floor q ≤ 999
    · rw [if_pos h, if_pos h]
      rfl
    · rw [if_neg h, if_neg h]
      show acc.1 = acc.1 ++ []
      rw [List.append_nil]
  | jstr s =>
    simp only [itemStep, itemEntry]
    cases hstr : strToNum s with
    | none =>
      show acc.1 = acc.1 ++ []
      rw [List.append_nil]
    | some q =>
      show (if 0 ≤ Rat.floor q ∧ Rat.floor q ≤ 999
            then (acc.1 ++ [⟨defaultNickname, Rat.floor q⟩], true) else acc).1
        = acc.1 ++ (if 0 ≤ Rat.floor q ∧ Rat.floor q ≤ 999
            then some (⟨defaultNickname, Rat.floor q⟩ : LBEntry) else none).toList
      by_cases h : 0 ≤ Rat.floor q ∧ Rat.floor q ≤ 999
      · rw [if_pos h, if_pos h]
        rfl
      · rw [if_neg h, if_neg h]
        show acc.1 = acc.1 ++ []
        rw [List.append_nil]
  | jobj fields =>
    simp only [itemStep, itemEntry]
    cases ht : timeCoerce strToNum objNum (jlookup fields "time") with
    | none =>
      show acc.1 = acc.1 ++ []
      rw [List.append_nil]
    | some time =>
      show (if 0 ≤ time ∧ time ≤ 999
            then (acc.1 ++ [⟨normalizeNickname (jlookup fields "name"), time⟩],
              acc.2 || (match jlookup fields "name" with
                | some (.jstr s) => normalizeNickname (jlookup fields "name") != s
                | _ => true))
            else acc).1
        = acc.1 ++ (if 0 ≤ time ∧ time ≤ 999
            then some (⟨normalizeNickname (jlookup fields "name"), time⟩ : LBEntry)
            else none).toList
      by_cases h : 0 ≤ time ∧ time ≤ 999
      · rw [if_pos h, if_pos h]
        rfl
      · rw [if_neg h, if_neg h]
        show acc.1 = acc.1 ++ []
        rw [List.append_nil]

theorem foldl_itemStep_fst (strToNum : String → Option Rat) (objNum : JVal → Option Rat)
    (items : List JVal) :
    ∀ acc : List LBEntry × Bool,
      (items.foldl (itemStep strToNum objNum) acc).1
        = acc.1 ++ items.filterMap (itemEntry strToNum objNum) := by
  induction items with
  | nil =>
    intro acc
    rw [List.filterMap_nil, List.foldl_nil, List.append_nil]
  | cons item rest ih =>
    intro acc
    rw [List.foldl_cons, ih, itemStep_fst strToNum objNum acc item, List.filterMap_cons]
    cases he : itemEntry strToNum objNum item with
    | none =>
      show acc.1 ++ [] ++ rest.filterMap (itemEntry strToNum objNum)
        = acc.1 ++ rest.filterMap (itemEntry strToNum objNum)
      rw [List.append_nil]
    | some e =>
      rw [List.append_assoc]
      rfl

theorem keyStep_fst (strToNum : String → Option Rat) (objNum : JVal → Option Rat)
    (acc : List (String × List LBEntry) × Bool) (kv : String × JVal) :
    (keyStep strToNum objNum acc kv).1
      = acc.1 ++ (keyResult strToNum objNum kv).toList := by
  rcases kv with ⟨k, v⟩
  cases v with
  | jarr items =>
    simp only [keyStep, keyResult]
    have hfa : (items.foldl (itemStep strToNum objNum) ([], acc.2)).1
        = items.filterMap (itemEntry strToNum objNum) := by
      rw [foldl_itemStep_fst]
      rfl
    rw [hfa]
    by_cases he : items.filterMap (itemEntry strToNum objNum) = []
    · rw [he, if_neg (by decide), if_pos rfl]
      show acc.1 = acc.1 ++ []
      rw [List.append_nil]
    · have hlen : 0 < (items.filterMap (itemEntry strToNum objNum)).length :=
        List.length_pos.mpr he
      rw [if_pos hlen, if_neg he]
      rfl
  | jnull =>
    show acc.1 = acc.1 ++ []
    rw [List.append_nil]
  | jbool b =>
    show acc.1 = acc.1 ++ []
    rw [List.append_nil]
  | jnum q =>
    show acc.1 = acc.1 ++ []
    rw [List.append_nil]
  | jstr s =>
    show acc.1 = acc.1 ++ []
    rw [List.append_nil]
  | jobj fields =>
    show acc.1 = acc.1 ++ []
    rw [List.append_nil]

theorem foldl_keyStep_fst (strToNum : String → Option Rat) (objNum : JVal → Option Rat)
    (fields : List (String × JVal)) :
    ∀ acc : List (String × List LBEntry) × Bool,
      (fields.foldl (keyStep strToNum objNum) acc).1
        = acc.1 ++ fields.filterMap (keyResult strToNum objNum) := by
  induction fields with
  | nil =>
    intro acc
    rw [List.filterMap_nil, List.foldl_nil, List.append_nil]
  | cons kv rest ih =>
    intro acc
    rw [List.foldl_cons, ih, keyStep_fst strToNum objNum acc kv, List.filterMap_cons]
    cases he : keyResult strToNum objNum kv with
    | none =>
      show acc.1 ++ [] ++ rest.filterMap (keyResult strToNum objNum)
        = acc.1 ++ rest.filterMap (keyResult strToNum objNum)
      rw [List.append_nil]
    | some e =>
      rw [List.append_assoc]
      rfl

theorem loadLeaderboard_obj (strToNum : String → Option Rat) (objNum : JVal → Option Rat)
    (fields : List (String × JVal)) :
    (loadLeaderboard strToNum objNum (some (JVal.jobj fields))).1
      = fields.filterMap (keyResult strToNum objNum) := by
  show (fields.foldl (keyStep strToNum objNum) ([], false)).1 = _
  rw [foldl_keyStep_fst]
  rfl

theorem itemEntry_range (strToNum : String → Option Rat) (objNum : JVal → Option Rat)
    {item : JVal} {e : LBEntry} (h : itemEntry strToNum objNum item = some e) :
    0 ≤ e.time ∧ e.time ≤ 999 := by
  cases item with
  | jnull => exact Option.noConfusion h
  | jbool b => exact Option.noConfusion h
  | jarr xs => exact Option.noConfusion h
  | jnum q =>
    simp only [itemEntry] at h
    split at h
    · rename_i hc
      injection h with h2
      subst h2
      exact hc
    · exact Option.noConfusion h
  | jstr s =>
    simp only [itemEntry] at h
    split at h
    · exact Option.noConfusion h
    · split at h
      · rename_i hc
        injection h with h2
        subst h2
        exact hc
      · exact Option.noConfusion h
  | jobj fields =>
    simp only [itemEntry] at h
    split at h
    · exact Option.noConfusion h
    · split at h
      · rename_i hc
        injection h with h2
        subst h2
        exact hc
      · exact Option.noConfusion h

end Minesweeper

namespace Minesweeper

/-- **C9.** Loading the leaderboard never fails: a missing raw value, a parse
failure, or a non-object parse yields the empty store.  On an object, the
result is exactly the per-key sanitization `keyResult`: every raw entry whose
coerced time is not a finite integer in `[0, 999]` is dropped (visible in
`itemEntry`), and a key all of whose entries are dropped is absent.  Every
key of the result holds entries sorted ascending by time, truncated to at
most 5, all with times in `[0, 999]` — for every possible JS number-coercion
behaviour on strings and objects. -/
theorem loadLeaderboard_sanitized (strToNum : String → Option Rat)
    (objNum : JVal → Option Rat) :
    loadLeaderboard strToNum objNum none = ([], false)
    ∧ (∀ v : JVal, (∀ fields, v ≠ JVal.jobj fields) →
        loadLeaderboard strToNum objNum (some v) = ([], false))
    ∧ (∀ fields, (loadLeaderboard strToNum objNum (some (JVal.jobj fields))).1
        = fields.filterMap (keyResult strToNum objNum))
    ∧ (∀ raw k es, (k, es) ∈ (loadLeaderboard strToNum objNum raw).1 →
        es.Sorted (fun a b => a.time ≤ b.time)
        ∧ es.length ≤ leaderboardLimit
        ∧ ∀ e ∈ es, 0 ≤ e.time ∧ e.time ≤ 999) := by
  have hmem : ∀ fields k es,
      (k, es) ∈ (loadLeaderboard strToNum objNum (some (JVal.jobj fields))).1 →
      es.Sorted (fun a b => a.time ≤ b.time)
      ∧ es.length ≤ leaderboardLimit
      ∧ ∀ e ∈ es, 0 ≤ e.time ∧ e.time ≤ 999 := by
    intro fields k es hmem
    rw [loadLeaderboard_obj] at hmem
    obtain ⟨kv, hkv, hres⟩ := List.mem_filterMap.mp hmem
    rcases kv with ⟨k0, v0⟩
    cases v0 with
    | jarr items =>
      simp only [keyResult] at hres
      split at hres
      · exact Option.noConfusion hres
      · injection hres with h2
        cases h2
        have htrans : ∀ a b c : LBEntry,
            (decide (a.time ≤ b.time)) = true → (decide (b.time ≤ c.time)) = true →
            (decide (a.time ≤ c.time)) = true := by
          intro a b c hab hbc
          rw [decide_eq_true_eq] at hab hbc ⊢
          omega
        have htotal : ∀ a b : LBEntry,
            ((decide (a.time ≤ b.time)) || (decide (b.time ≤ a.time))) = true := by
          intro a b
          rw [Bool.or_eq_true, decide_eq_true_eq, decide_eq_true_eq]
          omega
        have hsorted := List.sorted_mergeSort htrans htotal
          (items.filterMap (itemEntry strToNum objNum))
        have hs1 : ((items.filterMap (itemEntry strToNum objNum)).mergeSort
              (fun a b => decide (a.time ≤ b.time))).Pairwise
            (fun a b : LBEntry => a.time ≤ b.time) :=
          hsorted.imp (fun hab => of_decide_eq_true hab)
        refine ⟨?_, ?_, ?_⟩
        · exact hs1.sublist (List.take_sublist _ _)
        · exact List.length_take_le _ _
        · intro e he
          have he1 := List.take_subset _ _ he
          have he2 := (List.mergeSort_perm (items.filterMap (itemEntry strToNum objNum))
            (fun a b => decide (a.time ≤ b.time))).subset he1
          obtain ⟨item, _, hsome⟩ := List.mem_filterMap.mp he2
          exact itemEntry_range strToNum objNum hsome
    | jnull => exact Option.noConfusion hres
    | jbool b => exact Option.noConfusion hres
    | jnum q => exact Option.noConfusion hres
    | jstr s => exact Option.noConfusion hres
    | jobj f2 => exact Option.noConfusion hres
  refine ⟨rfl, ?_, ?_, ?_⟩
  · intro v hv
    cases v with
    | jobj fields => exact absurd rfl (hv fields)
    | jnull => rfl
    | jbool b => rfl
    | jnum q => rfl
    | jstr s => rfl
    | jarr xs => rfl
  · intro fields
    exact loadLeaderboard_obj strToNum objNum fields
  · intro raw k es hm
    cases raw with
    | none => exact absurd hm (List.not_mem_nil _)
    | some v =>
      cases v with
      | jobj fields => exact hmem fields k es hm
      | jnull => exact absurd hm (List.not_mem_nil _)
      | jbool b => exact absurd hm (List.not_mem_nil _)
      | jnum q => exact absurd hm (List.not_mem_nil _)
      | jstr s => exact absurd hm (List.not_mem_nil _)
      | jarr xs => exact absurd hm (List.not_mem_nil _)

end Minesweeper

namespace Minesweeper

/-! ### Concrete witnesses -/

/-- Concrete instantiation of the C1 theorem: a 3×3 board, one mine, first
click at the corner. -/
theorem placeMines_firstClickSafe_witness :
    (0 < 1 ∧ 1 < 3 * 3 ∧ 0 < 3 ∧ 0 < 3)
    ∧ (countGrid 3 3 (fun cell => cell.isMine)
          (placeMinesB (fun _ => 0) 3 3 1 0 0 (createEmptyBoard 3 3)) = 1
      ∧ (getc (placeMinesB (fun _ => 0) 3 3 1 0 0 (createEmptyBoard 3 3)) 0 0).isMine = false
      ∧ (1 + (exclusionList 3 3 0 0).length ≤ 3 * 3 →
          ∀ r' : Nat, r' < 3 → ∀ c' : Nat, c' < 3 →
            r' ≤ 0 + 1 → 0 ≤ r' + 1 → c' ≤ 0 + 1 → 0 ≤ c' + 1 →
            (getc (placeMinesB (fun _ => 0) 3 3 1 0 0 (createEmptyBoard 3 3)) r' c').isMine
              = false)
      ∧ (3 * 3 < 1 + 9 →
          (getc (placeMinesB (fun _ => 0) 3 3 1 0 0 (createEmptyBoard 3 3)) 0 0).isMine
            = false)) :=
  ⟨⟨by decide, by decide, by decide, by decide⟩,
   placeMines_firstClickSafe (fun _ => 0) 3 3 1 0 0 (by decide) (by decide) (by decide)
     (by decide)⟩

/-- Concrete instantiation of the C3 theorem: the same 3×3 placement, checked
at the safe cell (1,1). -/
theorem placeMines_adjacentCorrect_witness :
    (0 < 1 ∧ 1 < 3 * 3 ∧ 0 < 3 ∧ 0 < 3 ∧ 1 < 3
      ∧ (getc (placeMinesB (fun _ => 0) 3 3 1 0 0 (createEmptyBoard 3 3)) 1 1).isMine = false)
    ∧ (getc (placeMinesB (fun _ => 0) 3 3 1 0 0 (createEmptyBoard 3 3)) 1 1).adjacent
        = refAdjacent 3 3 (placeMinesB (fun _ => 0) 3 3 1 0 0 (createEmptyBoard 3 3)) 1 1 :=
  ⟨⟨by decide, by decide, by decide, by decide, by decide, by decide⟩,
   placeMines_adjacentCorrect (fun _ => 0) 3 3 1 0 0 (by decide) (by decide) (by decide)
     (by decide) 1 1 (by decide) (by decide) (by decide)⟩

/-- Concrete instantiation of the C4 amended theorem at the empty-pool state. -/
theorem handleHint_hintsUsed_witness :
    hintEmptyPoolState.isGameOver = false
    ∧ (((hintEmptyPoolState.minesPlaced = false
          ∨ findHintCell ((fun _ => 0) 2) hintEmptyPoolState ≠ none) →
        (handleHint (fun _ => 0) hintEmptyPoolState).hintsUsed
          = hintEmptyPoolState.hintsUsed + 1)
      ∧ (hintEmptyPoolState.minesPlaced = true →
          findHintCell ((fun _ => 0) 2) hintEmptyPoolState = none →
          (handleHint (fun _ => 0) hintEmptyPoolState).hintsUsed
            = hintEmptyPoolState.hintsUsed)
      ∧ (∀ (t : GS) (rand' : Nat → Nat) (r c : Nat),
          t.hintsUsed ≤ (handleCellClick rand' r c t).hintsUsed
          ∧ t.hintsUsed ≤ (toggleFlag r c t).hintsUsed
          ∧ t.hintsUsed ≤ (handleHint rand' t).hintsUsed)
      ∧ (∀ rows cols mines, (createInitialState rows cols mines).hintsUsed = 0)) :=
  ⟨by decide, handleHint_hintsUsed (fun _ => 0) hintEmptyPoolState (by decide)⟩

/-- A 1×2 board with a mine and a flagged safe cell, for the C5 witness. -/
def c5Board : Board :=
  [[{ isMine := true, isOpen := false, isFlagged := false, adjacent := 0, isWrongFlag := false },
    { isMine := false, isOpen := false, isFlagged := true, adjacent := 1, isWrongFlag := false }]]

/-- Concrete instantiation of the C5 theorem at the mine cell of `c5Board`. -/
theorem revealMines_spec_witness :
    (Rect 1 2 c5Board ∧ 0 < 1 ∧ 0 < 2)
    ∧ (((getc c5Board 0 0).isMine = true →
        getc (revealMinesB 1 2 c5Board) 0 0 = { getc c5Board 0 0 with isOpen := true })
      ∧ ((getc c5Board 0 0).isMine = false → (getc c5Board 0 0).isFlagged = true →
        getc (revealMinesB 1 2 c5Board) 0 0
          = { getc c5Board 0 0 with isOpen := true, isWrongFlag := true })
      ∧ ((getc c5Board 0 0).isMine = false → (getc c5Board 0 0).isFlagged = false →
        getc (revealMinesB 1 2 c5Board) 0 0 = getc c5Board 0 0)) :=
  ⟨⟨by decide, by decide, by decide⟩,
   revealMines_spec 1 2 c5Board (by decide) 0 0 (by decide) (by decide)⟩

/-- A terminal (lost) 1×1 session, for the C6 witness. -/
def c6State : GS :=
  { rows := 1, cols := 1, mines := 1, board := [[emptyCell]]
    flags := 0, openCount := 0, minesPlaced := true
    isGameOver := true, didWin := false
    timerRunning := false, elapsed := 7, hintsUsed := 2 }

/-- Concrete instantiation of the C6 theorem on the terminal session. -/
theorem terminal_ops_noop_witness :
    c6State.isGameOver = true
    ∧ (handleCellClick (fun _ => 0) 0 0 c6State = c6State ∧ toggleFlag 0 0 c6State = c6State) :=
  ⟨by decide, terminal_ops_noop (fun _ => 0) 0 0 c6State (by decide)⟩

/-- A live 1×2 session (safe cell closed, mine closed), for the C7 witness. -/
def c7State : GS :=
  { rows := 1, cols := 2, mines := 1
    board := [[{ isMine := false, isOpen := false, isFlagged := false, adjacent := 1,
                 isWrongFlag := false },
               { isMine := true, isOpen := false, isFlagged := false, adjacent := 0,
                 isWrongFlag := false }]]
    flags := 0, openCount := 0, minesPlaced := true
    isGameOver := false, didWin := false
    timerRunning := true, elapsed := 0, hintsUsed := 0 }

/-- Concrete instantiation of the C7 theorem: opening (0,0) and then opening
it again. -/
theorem openCell_idempotent_witness :
    (Rect c7State.rows c7State.cols c7State.board ∧ 0 < c7State.rows ∧ 0 < c7State.cols)
    ∧ ((((getc c7State.board 0 0).isOpen = true ∨ (getc c7State.board 0 0).isFlagged = true) →
        openCell 0 0 c7State = (c7State, false))
      ∧ openCell 0 0 (openCell 0 0 c7State).1 = ((openCell 0 0 c7State).1, false)) :=
  ⟨⟨by decide, by decide, by decide⟩,
   openCell_idempotent 0 0 c7State (by decide) (by decide) (by decide)⟩

/-- A 1×2 board (safe cell next to a mine), for the C8 witness. -/
def c8Board : Board :=
  [[{ isMine := false, isOpen := false, isFlagged := false, adjacent := 1, isWrongFlag := false },
    { isMine := true, isOpen := false, isFlagged := false, adjacent := 0, isWrongFlag := false }]]

/-- Concrete instantiation of the C8 theorem: a flood started at (0,0). -/
theorem floodOpen_opensOnlySafeCells_witness :
    Rect 1 2 c8Board
    ∧ ((∀ r' c', ((getc c8Board r' c').isFlagged = true ∨ (getc c8Board r' c').isMine = true) →
          getc (floodOpen 1 2 c8Board 0 0 0).1 r' c' = getc c8Board r' c')
      ∧ (∀ r' c',
          (getc (floodOpen 1 2 c8Board 0 0 0).1 r' c').isFlagged = (getc c8Board r' c').isFlagged
          ∧ (getc (floodOpen 1 2 c8Board 0 0 0).1 r' c').isMine = (getc c8Board r' c').isMine)
      ∧ (∀ r' c', (getc c8Board r' c').isOpen = true →
          (getc (floodOpen 1 2 c8Board 0 0 0).1 r' c').isOpen = true)
      ∧ (floodOpen 1 2 c8Board 0 0 0).2
            + countGrid 1 2 (fun cell => cell.isOpen) c8Board
          = 0 + countGrid 1 2 (fun cell => cell.isOpen) (floodOpen 1 2 c8Board 0 0 0).1) :=
  ⟨by decide, floodOpen_opensOnlySafeCells 1 2 c8Board 0 0 0 (by decide)⟩

end Minesweeper
